import Mathlib

/-! gvcftools `get_called_regions`: the called-region merge engine

A shallow embedding of `CallRegionVcfRecordHandler` from
`src/get_called_regions.cpp`, and theorems about it.

Modelling conventions.

* `unsigned` values are natural numbers.  `addPassedRange` only compares and
  takes `std::max`, so no wrap-around can happen there; the one addition of the
  source (`end_pos+1` in `process_line`) is reduced modulo `2^32` explicitly.
* The output stream `_opt.outfp` is the list of the lines written so far, each
  line kept as the triple that `writeCurrent` prints; `GenomicInterval.text`
  renders a line as the characters sent to the stream.
* `assert` and `exit(EXIT_FAILURE)` end the run: a call that reaches one
  returns `Except.error`.
-/

namespace GetCalledRegions

/-! ## Data model -/

/-- One `(chromosome, beginPos, endPos)` triple: a passed range handed to
`addPassedRange`, or one line written by `writeCurrent`. -/
structure GenomicInterval where
  chrom : String
  beginPos : Nat
  endPos : Nat
  deriving DecidableEq, Repr

/-- The characters `writeCurrent` sends to the stream for one line:
`chrom << '\t' << beginPos << '\t' << endPos << '\n'`. -/
def GenomicInterval.text (l : GenomicInterval) : String :=
  l.chrom ++ "\t" ++ toString l.beginPos ++ "\t" ++ toString l.endPos ++ "\n"

/-- The ways a call can end the run. -/
inductive Failure where
  /-- The `exit(EXIT_FAILURE)` after "unexpected number of fields in vcf record". -/
  | unexpectedFieldCount
  /-- A failed `assert(begin_pos > 0)` in `process_line`. -/
  | assertBeginPositive
  /-- A failed `assert(end_pos > 0)` in `process_line`. -/
  | assertEndPositive
  /-- The `exit(EXIT_FAILURE)` after "Can't parse record range", with the parsed pair. -/
  | cantParseRange (begin_pos end_pos : Nat)
  /-- A failed `assert(beginPos >= _currentBeginPos)` in `addPassedRange`. -/
  | assertBeginOrder
  deriving DecidableEq, Repr

/-- The handler's members together with what has been written to `_opt.outfp`. -/
structure CallRegionVcfRecordHandler where
  outfp : List GenomicInterval
  _currentChrom : String
  _currentBeginPos : Nat
  _currentEndPos : Nat
  deriving DecidableEq, Repr

instance : DecidableEq (Except Failure CallRegionVcfRecordHandler)
  | .ok a, .ok b => if h : a = b then isTrue (by rw [h]) else isFalse (by simpa using h)
  | .error a, .error b => if h : a = b then isTrue (by rw [h]) else isFalse (by simpa using h)
  | .ok _, .error _ => isFalse (by simp)
  | .error _, .ok _ => isFalse (by simp)

instance : DecidableEq (Except Failure (List GenomicInterval))
  | .ok a, .ok b => if h : a = b then isTrue (by rw [h]) else isFalse (by simpa using h)
  | .error a, .error b => if h : a = b then isTrue (by rw [h]) else isFalse (by simpa using h)
  | .ok _, .error _ => isFalse (by simp)
  | .error _, .ok _ => isFalse (by simp)

namespace CallRegionVcfRecordHandler

/-- The constructor: `_currentChrom` is default-constructed (empty), nothing has
been written, and the two `unsigned` members are left uninitialised, so their
starting values are arbitrary. -/
def construct (uninitBegin uninitEnd : Nat) : CallRegionVcfRecordHandler :=
  { outfp := [], _currentChrom := "", _currentBeginPos := uninitBegin,
    _currentEndPos := uninitEnd }

/-- Source `writeCurrent`: nothing when `_currentChrom` is empty, else one line
with the three members is appended to the stream.  No member is modified. -/
def writeCurrent (self : CallRegionVcfRecordHandler) : CallRegionVcfRecordHandler :=
  if self._currentChrom = "" then self
  else
    { self with
      outfp := self.outfp ++
        [⟨self._currentChrom, self._currentBeginPos, self._currentEndPos⟩] }

/-- Source `updateCurrent`: `writeCurrent()`, then the three members are assigned. -/
def updateCurrent (chrom : String) (beginPos endPos : Nat)
    (self : CallRegionVcfRecordHandler) : CallRegionVcfRecordHandler :=
  { writeCurrent self with
    _currentChrom := chrom, _currentBeginPos := beginPos, _currentEndPos := endPos }

/-- Source `addPassedRange`. -/
def addPassedRange (chrom : String) (beginPos endPos : Nat)
    (self : CallRegionVcfRecordHandler) : Except Failure CallRegionVcfRecordHandler :=
  if self._currentChrom = "" then
    .ok (updateCurrent chrom beginPos endPos self)
  else if self._currentChrom ≠ chrom then
    .ok (updateCurrent chrom beginPos endPos self)
  else if ¬ (beginPos ≥ self._currentBeginPos) then
    .error Failure.assertBeginOrder
  else if beginPos > self._currentEndPos then
    .ok (updateCurrent chrom beginPos endPos self)
  else
    .ok { self with _currentEndPos := max endPos self._currentEndPos }

/-- The destructor: "close out any remaining passed regions". -/
def destruct (self : CallRegionVcfRecordHandler) : CallRegionVcfRecordHandler :=
  writeCurrent self

/-- The characters that have been sent to `_opt.outfp`. -/
def outfpText (self : CallRegionVcfRecordHandler) : String :=
  String.join (self.outfp.map GenomicInterval.text)

/-- Feed the ranges to `addPassedRange` one after the other, stopping at the
first failure. -/
def feedAll : List GenomicInterval → CallRegionVcfRecordHandler →
    Except Failure CallRegionVcfRecordHandler
  | [], self => .ok self
  | r :: rs, self =>
    match addPassedRange r.chrom r.beginPos r.endPos self with
    | .ok self' => feedAll rs self'
    | .error f => .error f

/-- A whole life of the engine: construct, feed every range, destruct; the
result is everything written to the stream. -/
def run (uninitBegin uninitEnd : Nat) (rs : List GenomicInterval) :
    Except Failure (List GenomicInterval) :=
  match feedAll rs (construct uninitBegin uninitEnd) with
  | .ok self => .ok (destruct self).outfp
  | .error f => .error f

end CallRegionVcfRecordHandler

/-! ## The record handler's entry point and the driver -/

/-- What `process_line` uses of `vcf_util.hh`, a header that is not among the
sources at hand: three indices of the enumeration `VCFID` and the helper
`get_vcf_record_range`, which yields the parsed 1-based range
`(begin_pos, end_pos)` of a record's words.  They are parameters of the model. -/
structure VcfUtil where
  CHROM : Nat
  FILT : Nat
  SAMPLE : Nat
  get_vcf_record_range : List String → Nat × Nat

/-- Modelled from the spec: `istream_line_splitter`, whose declaration is not
among the sources at hand, holds the tab-delimited words of the current line;
`n_word()` is their number. -/
structure istream_line_splitter where
  word : List String

/-- Source `istream_line_splitter::n_word`. -/
def istream_line_splitter.n_word (vparse : istream_line_splitter) : Nat :=
  vparse.word.length

/-- The value of `unsigned` arithmetic wraps at this modulus. -/
def UNSIGNED_MODULUS : Nat := 2 ^ 32

/-- The body of source `process_line`, with the member function it calls in
its last statement as the argument `addPassedRange`, so that what is forwarded
to that call can be stated for every callee.  A word index past the end of the
line (which the field-count check rules out for the real `VCFID`) reads as the
empty string. -/
def process_lineWith {σ : Type} (U : VcfUtil)
    (addPassedRange : String → Nat → Nat → σ → Except Failure σ)
    (vparse : istream_line_splitter) (self : σ) : Except Failure σ :=
  let nw := vparse.n_word
  if nw ≠ U.SAMPLE + 1 then
    .error Failure.unexpectedFieldCount
  else
    let filterStr := vparse.word.getD U.FILT ""
    if ¬ (filterStr = "PASS") then .ok self
    else
      let begin_pos := (U.get_vcf_record_range vparse.word).1
      let end_pos := (U.get_vcf_record_range vparse.word).2
      if (end_pos + 1) % UNSIGNED_MODULUS = begin_pos then .ok self
      else if ¬ (begin_pos > 0) then .error Failure.assertBeginPositive
      else if ¬ (end_pos > 0) then .error Failure.assertEndPositive
      else if end_pos < begin_pos then
        .error (Failure.cantParseRange begin_pos end_pos)
      else
        let chromStr := vparse.word.getD U.CHROM ""
        addPassedRange chromStr (begin_pos - 1) end_pos self

namespace CallRegionVcfRecordHandler

/-- Source `process_line`: the body above, calling the handler's own
`addPassedRange`. -/
def process_line (U : VcfUtil) (vparse : istream_line_splitter)
    (self : CallRegionVcfRecordHandler) : Except Failure CallRegionVcfRecordHandler :=
  process_lineWith U addPassedRange vparse self

end CallRegionVcfRecordHandler

/-- Modelled from the spec: `VcfHeaderHandler`, a class that is not among the
sources at hand, recognises header lines and skips them.  It has some state and
a `process_line` that says whether the line was a header line; built with
`is_skip_header` set, it writes nothing to the output. -/
structure VcfHeaderHandler where
  State : Type
  init : State
  process_line : State → istream_line_splitter → Bool × State

/-- The `while (vparse.parse_line())` loop of source `process_vcf_input`, over
the lines still to be read. -/
def process_vcf_input_loop (U : VcfUtil) (H : VcfHeaderHandler) :
    List istream_line_splitter → H.State → CallRegionVcfRecordHandler →
    Except Failure CallRegionVcfRecordHandler
  | [], _, rec => .ok rec
  | vparse :: rest, header, rec =>
    if (H.process_line header vparse).1 then
      process_vcf_input_loop U H rest (H.process_line header vparse).2 rec
    else
      match CallRegionVcfRecordHandler.process_line U vparse rec with
      | .ok rec' => process_vcf_input_loop U H rest (H.process_line header vparse).2 rec'
      | .error f => .error f

/-- Source `process_vcf_input`: the handler is constructed, the loop runs, and
on leaving the function the handler's destructor runs; the result is what has
been written to `opt.outfp`. -/
def process_vcf_input (U : VcfUtil) (H : VcfHeaderHandler) (uninitBegin uninitEnd : Nat)
    (infp : List istream_line_splitter) : Except Failure (List GenomicInterval) :=
  match process_vcf_input_loop U H infp H.init
      (CallRegionVcfRecordHandler.construct uninitBegin uninitEnd) with
  | .ok rec => .ok (CallRegionVcfRecordHandler.destruct rec).outfp
  | .error f => .error f

/-! ## Vocabulary of the statements -/

/-- The union of the half-open intervals `[beginPos, endPos)` of a list. -/
def unionOf (L : List GenomicInterval) : Set Nat :=
  {x | ∃ l ∈ L, l.beginPos ≤ x ∧ x < l.endPos}

/-- The part of the union of a list that lies on chromosome `c`. -/
def unionOn (c : String) (L : List GenomicInterval) : Set Nat :=
  {x | ∃ l ∈ L, l.chrom = c ∧ l.beginPos ≤ x ∧ x < l.endPos}

/-- Two consecutive output lines are kept apart: they lie on different
chromosomes, or the later one begins no earlier than the earlier one begins
and strictly after the earlier one ends. -/
def KeptApart (a b : GenomicInterval) : Prop :=
  a.chrom ≠ b.chrom ∨ (a.beginPos ≤ b.beginPos ∧ a.endPos < b.beginPos)

instance (a b : GenomicInterval) : Decidable (KeptApart a b) := by
  unfold KeptApart; infer_instance

/-- Two output lines with a strict gap between them: the earlier one ends
strictly before the later one begins, and the later one is not inverted. -/
def StrictGap (a b : GenomicInterval) : Prop :=
  a.endPos < b.beginPos ∧ b.beginPos ≤ b.endPos

instance (a b : GenomicInterval) : Decidable (StrictGap a b) := by
  unfold StrictGap; infer_instance

instance : IsTrans GenomicInterval StrictGap where
  trans _ _ _ hab hbc :=
    ⟨lt_of_lt_of_le hab.1 (le_trans hab.2 (Nat.le_of_lt hbc.1)), hbc.2⟩

/-- The pair `(beginPos, endPos)` of a line. -/
def GenomicInterval.span (l : GenomicInterval) : Nat × Nat :=
  (l.beginPos, l.endPos)

/-- The lines of a list that cover at least one position. -/
def positiveWidth (L : List GenomicInterval) : List GenomicInterval :=
  L.filter (fun l => decide (l.beginPos < l.endPos))

/-- A list of intervals of positive width, each ending strictly before every
later one begins: no two overlap or abut. -/
def Canonical (L : List GenomicInterval) : Prop :=
  (∀ l ∈ L, l.beginPos < l.endPos) ∧ L.Pairwise (fun a b => a.endPos < b.beginPos)

/-- The open interval of a handler, as the line `writeCurrent` would print. -/
def CallRegionVcfRecordHandler.current (self : CallRegionVcfRecordHandler) :
    GenomicInterval :=
  ⟨self._currentChrom, self._currentBeginPos, self._currentEndPos⟩

/-- The same handler with `p` written to the stream before everything else. -/
def CallRegionVcfRecordHandler.afterOutput (p : List GenomicInterval)
    (self : CallRegionVcfRecordHandler) : CallRegionVcfRecordHandler :=
  { self with outfp := p ++ self.outfp }

/-- The indices of the ten-column gVCF line (`CHROM` first, `FILTER` seventh,
the sample column tenth), with a range helper that reads `11..20` from every
record; used to instantiate the statements. -/
def sampleVcfUtil : VcfUtil :=
  { CHROM := 0, FILT := 6, SAMPLE := 9, get_vcf_record_range := fun _ => (11, 20) }

/-- As `sampleVcfUtil`, with a range helper that reads the insertion range
`21..20` from every record. -/
def sampleInsertionVcfUtil : VcfUtil :=
  { CHROM := 0, FILT := 6, SAMPLE := 9, get_vcf_record_range := fun _ => (21, 20) }

/-- A header handler without state that takes the lines whose first word
starts with `#` as header lines. -/
def sampleHeaderHandler : VcfHeaderHandler :=
  { State := Unit, init := (),
    process_line := fun _ vparse => ((vparse.word.headD "").startsWith "#", ()) }

/-- A ten-column record of `chr1` with the given `FILTER` word. -/
def sampleRecord (filt : String) : istream_line_splitter :=
  ⟨["chr1", "11", ".", "A", ".", ".", filt, "END=20", "GT", "0/0"]⟩

/-- Source `addPassedRange` once more, this time giving the handler as it
stands when the call ends, together with the failure if the call ended by the
failed assertion.  The assertion is the first statement of its branch, so
nothing has been written or assigned when it fails. -/
def CallRegionVcfRecordHandler.addPassedRangeTraced (chrom : String) (beginPos endPos : Nat)
    (self : CallRegionVcfRecordHandler) : CallRegionVcfRecordHandler × Option Failure :=
  if self._currentChrom = "" then
    (CallRegionVcfRecordHandler.updateCurrent chrom beginPos endPos self, none)
  else if self._currentChrom ≠ chrom then
    (CallRegionVcfRecordHandler.updateCurrent chrom beginPos endPos self, none)
  else if ¬ (beginPos ≥ self._currentBeginPos) then
    (self, some Failure.assertBeginOrder)
  else if beginPos > self._currentEndPos then
    (CallRegionVcfRecordHandler.updateCurrent chrom beginPos endPos self, none)
  else
    ({ self with _currentEndPos := max endPos self._currentEndPos }, none)

/-- Whether `addPassedRange` takes its last branch on this range: an interval
is open on the range's chromosome and the range begins inside it or at its
end. -/
def CallRegionVcfRecordHandler.mergesInto (r : GenomicInterval)
    (self : CallRegionVcfRecordHandler) : Bool :=
  decide (self._currentChrom ≠ "" ∧ self._currentChrom = r.chrom ∧
    self._currentBeginPos ≤ r.beginPos ∧ r.beginPos ≤ self._currentEndPos)

/-- The ranges fed since the current interval was opened, the opening one
first: `updateCurrent` starts the list afresh with the range it is called for,
the merging branch adds the range to it.  `acc` is the list for the starting
state; feeding stops at the first failure. -/
def CallRegionVcfRecordHandler.fedSinceOpened :
    List GenomicInterval → CallRegionVcfRecordHandler → List GenomicInterval →
    List GenomicInterval
  | [], _, acc => acc
  | r :: rs, self, acc =>
    match CallRegionVcfRecordHandler.addPassedRange r.chrom r.beginPos r.endPos self with
    | .ok self' =>
      CallRegionVcfRecordHandler.fedSinceOpened rs self'
        (if CallRegionVcfRecordHandler.mergesInto r self then acc ++ [r] else [r])
    | .error _ => acc

/-- As `sampleVcfUtil`, with a range helper that reads the inverted range
`30..20` from every record. -/
def sampleInvertedVcfUtil : VcfUtil :=
  { CHROM := 0, FILT := 6, SAMPLE := 9, get_vcf_record_range := fun _ => (30, 20) }

/-- The state of an engine that has only been fed named ranges since it was
constructed: nothing has been written while no interval is open, every written
line is named, and consecutive lines of the complete output are kept apart. -/
structure CallRegionVcfRecordHandler.Settled (handler : CallRegionVcfRecordHandler) : Prop where
  nothing_written : handler._currentChrom = "" → handler.outfp = []
  named : ∀ l ∈ handler.outfp, l.chrom ≠ ""
  apart : (CallRegionVcfRecordHandler.destruct handler).outfp.Chain' KeptApart

open CallRegionVcfRecordHandler

/-! ## One call of `writeCurrent`, `updateCurrent`, `addPassedRange` -/

theorem writeCurrent_of_empty {s : CallRegionVcfRecordHandler} (h : s._currentChrom = "") :
    writeCurrent s = s := by
  simp [writeCurrent, h]

theorem writeCurrent_of_open {s : CallRegionVcfRecordHandler} (h : s._currentChrom ≠ "") :
    writeCurrent s = { s with outfp := s.outfp ++ [s.current] } := by
  simp [writeCurrent, h, current]

theorem destruct_outfp_of_empty {s : CallRegionVcfRecordHandler} (h : s._currentChrom = "") :
    (destruct s).outfp = s.outfp := by
  simp [destruct, writeCurrent_of_empty h]

theorem destruct_outfp_of_open {s : CallRegionVcfRecordHandler} (h : s._currentChrom ≠ "") :
    (destruct s).outfp = s.outfp ++ [s.current] := by
  simp [destruct, writeCurrent_of_open h]

theorem updateCurrent_outfp (c : String) (b e : Nat) (s : CallRegionVcfRecordHandler) :
    (updateCurrent c b e s).outfp = (destruct s).outfp := by
  simp [updateCurrent, destruct]

theorem updateCurrent_current (c : String) (b e : Nat) (s : CallRegionVcfRecordHandler) :
    (updateCurrent c b e s).current = ⟨c, b, e⟩ := by
  simp [updateCurrent, current]

theorem updateCurrent_chrom (c : String) (b e : Nat) (s : CallRegionVcfRecordHandler) :
    (updateCurrent c b e s)._currentChrom = c := by
  simp [updateCurrent]

theorem destruct_updateCurrent_of_named {c : String} (hc : c ≠ "") (b e : Nat)
    (s : CallRegionVcfRecordHandler) :
    (destruct (updateCurrent c b e s)).outfp = (destruct s).outfp ++ [⟨c, b, e⟩] := by
  rw [destruct_outfp_of_open (by rw [updateCurrent_chrom]; exact hc), updateCurrent_outfp,
    updateCurrent_current]

theorem destruct_updateCurrent_of_unnamed (b e : Nat) (s : CallRegionVcfRecordHandler) :
    (destruct (updateCurrent "" b e s)).outfp = (destruct s).outfp := by
  rw [destruct_outfp_of_empty (updateCurrent_chrom "" b e s), updateCurrent_outfp]

/-- The three ways a call of `addPassedRange` can go: the open interval (if
any) is written and replaced; the ordering assertion fails; or the range is
merged into the open interval. -/
theorem addPassedRange_cases (c : String) (b e : Nat) (s : CallRegionVcfRecordHandler) :
    ((s._currentChrom = "" ∨ s._currentChrom ≠ c ∨
        (s._currentBeginPos ≤ b ∧ s._currentEndPos < b)) ∧
      addPassedRange c b e s = .ok (updateCurrent c b e s)) ∨
    (s._currentChrom ≠ "" ∧ s._currentChrom = c ∧ b < s._currentBeginPos ∧
      addPassedRange c b e s = .error Failure.assertBeginOrder) ∨
    (s._currentChrom ≠ "" ∧ s._currentChrom = c ∧ s._currentBeginPos ≤ b ∧
      b ≤ s._currentEndPos ∧
      addPassedRange c b e s = .ok { s with _currentEndPos := max e s._currentEndPos }) := by
  unfold addPassedRange
  by_cases h1 : s._currentChrom = ""
  · simp [h1]
  · by_cases h2 : s._currentChrom = c
    · subst h2
      by_cases h3 : s._currentBeginPos ≤ b
      · by_cases h4 : s._currentEndPos < b
        · simp [h1, h3, h4]
        · have h5 : b ≤ s._currentEndPos := Nat.le_of_not_lt h4
          simp [h1, h3, h4, h5]
      · have h5 : b < s._currentBeginPos := Nat.lt_of_not_le h3
        simp [h1, h3, h5]
    · simp [h1, h2]

/-- After a successful call the current chromosome is the one passed in. -/
theorem addPassedRange_chrom {c : String} {b e : Nat} {s s' : CallRegionVcfRecordHandler}
    (h : addPassedRange c b e s = .ok s') : s'._currentChrom = c := by
  rcases addPassedRange_cases c b e s with ⟨_, h1⟩ | ⟨_, _, _, h1⟩ | ⟨_, hc, _, _, h1⟩
  · rw [h1] at h; cases h; exact updateCurrent_chrom c b e s
  · rw [h1] at h; cases h
  · rw [h1] at h; cases h; exact hc

/-! ## Sequences of calls -/

theorem feedAll_cons_ok {r : GenomicInterval} {rs : List GenomicInterval}
    {s s' : CallRegionVcfRecordHandler} :
    feedAll (r :: rs) s = .ok s' ↔
      ∃ s1, addPassedRange r.chrom r.beginPos r.endPos s = .ok s1 ∧ feedAll rs s1 = .ok s' := by
  simp only [feedAll]
  cases h : addPassedRange r.chrom r.beginPos r.endPos s with
  | ok s1 => simp
  | error f => simp

theorem feedAll_append (xs ys : List GenomicInterval) (s : CallRegionVcfRecordHandler) :
    feedAll (xs ++ ys) s =
      match feedAll xs s with
      | .ok s' => feedAll ys s'
      | .error f => .error f := by
  induction xs generalizing s with
  | nil => rfl
  | cons x xs ih =>
    simp only [List.cons_append, feedAll]
    cases h : addPassedRange x.chrom x.beginPos x.endPos s with
    | ok s1 => simpa using ih s1
    | error f => rfl

theorem run_ok_iff {a b : Nat} {rs out : List GenomicInterval} :
    run a b rs = .ok out ↔
      ∃ s, feedAll rs (construct a b) = .ok s ∧ (destruct s).outfp = out := by
  unfold run
  cases h : feedAll rs (construct a b) with
  | ok s => simp
  | error f => simp

/-! ### Coverage -/

theorem unionOn_nil (c : String) : unionOn c [] = ∅ := by
  ext x; simp [unionOn]

theorem unionOn_append (c : String) (L M : List GenomicInterval) :
    unionOn c (L ++ M) = unionOn c L ∪ unionOn c M := by
  ext x
  simp only [unionOn, Set.mem_setOf_eq, Set.mem_union, List.mem_append]
  constructor
  · rintro ⟨l, hl | hl, h⟩
    · exact Or.inl ⟨l, hl, h⟩
    · exact Or.inr ⟨l, hl, h⟩
  · rintro (⟨l, hl, h⟩ | ⟨l, hl, h⟩)
    · exact ⟨l, Or.inl hl, h⟩
    · exact ⟨l, Or.inr hl, h⟩

theorem unionOn_cons (c : String) (l : GenomicInterval) (L : List GenomicInterval) :
    unionOn c (l :: L) = unionOn c [l] ∪ unionOn c L :=
  unionOn_append c [l] L

theorem mem_unionOn_singleton {c : String} {l : GenomicInterval} {x : Nat} :
    x ∈ unionOn c [l] ↔ l.chrom = c ∧ l.beginPos ≤ x ∧ x < l.endPos := by
  simp [unionOn]

/-- One successful call adds exactly the fed range to what the complete output
covers on each named chromosome. -/
theorem unionOn_addPassedRange {c : String} {b e : Nat} {s s' : CallRegionVcfRecordHandler}
    (h : addPassedRange c b e s = .ok s') {k : String} (hk : k ≠ "") :
    unionOn k (destruct s').outfp = unionOn k (destruct s).outfp ∪ unionOn k [⟨c, b, e⟩] := by
  rcases addPassedRange_cases c b e s with ⟨_, h1⟩ | ⟨_, _, _, h1⟩ | ⟨ho, hc, hb, hbe, h1⟩
  · rw [h1] at h; cases h
    by_cases hc : c = ""
    · subst hc
      rw [destruct_updateCurrent_of_unnamed]
      ext x
      simp only [Set.mem_union, mem_unionOn_singleton]
      constructor
      · exact Or.inl
      · rintro (hx | ⟨hx, _⟩)
        · exact hx
        · exact absurd hx.symm hk
    · rw [destruct_updateCurrent_of_named hc, unionOn_append]
  · rw [h1] at h; cases h
  · rw [h1] at h; cases h
    rw [destruct_outfp_of_open (s := { s with _currentEndPos := max e s._currentEndPos }) ho,
      destruct_outfp_of_open ho, unionOn_append, unionOn_append, Set.union_assoc]
    congr 1
    ext x
    simp only [Set.mem_union, mem_unionOn_singleton, current, hc]
    constructor
    · rintro ⟨hk1, hx1, hx2⟩
      by_cases hx : x < s._currentEndPos
      · exact Or.inl ⟨hk1, hx1, hx⟩
      · refine Or.inr ⟨hk1, ?_, ?_⟩
        · omega
        · rcases Nat.lt_or_ge x e with h3 | h3
          · exact h3
          · exfalso
            have := max_le h3 (Nat.le_of_not_lt hx)
            omega
    · rintro (⟨hk1, hx1, hx2⟩ | ⟨hk1, hx1, hx2⟩)
      · exact ⟨hk1, hx1, lt_of_lt_of_le hx2 (le_max_right _ _)⟩
      · exact ⟨hk1, by omega, lt_of_lt_of_le hx2 (le_max_left _ _)⟩

/-- Every successful sequence of calls adds exactly the fed ranges to what the
complete output covers on each named chromosome. -/
theorem unionOn_feedAll {rs : List GenomicInterval} {s s' : CallRegionVcfRecordHandler}
    (h : feedAll rs s = .ok s') {k : String} (hk : k ≠ "") :
    unionOn k (destruct s').outfp = unionOn k (destruct s).outfp ∪ unionOn k rs := by
  induction rs generalizing s with
  | nil =>
    simp only [feedAll, Except.ok.injEq] at h
    subst h
    simp [unionOn_nil]
  | cons r rs ih =>
    obtain ⟨s1, h1, h2⟩ := feedAll_cons_ok.mp h
    rw [ih h2, unionOn_addPassedRange h1 hk, unionOn_cons k r rs, Set.union_assoc]

/-- Each line of the complete output after a successful sequence of calls was
in the complete output before, or carries the chromosome of a fed range. -/
theorem chrom_of_mem_feedAll {rs : List GenomicInterval} {s s' : CallRegionVcfRecordHandler}
    (h : feedAll rs s = .ok s') {l : GenomicInterval} (hl : l ∈ (destruct s').outfp) :
    l ∈ (destruct s).outfp ∨ ∃ r ∈ rs, r.chrom = l.chrom := by
  induction rs generalizing s with
  | nil =>
    simp only [feedAll, Except.ok.injEq] at h
    subst h
    exact Or.inl hl
  | cons r rs ih =>
    obtain ⟨s1, h1, h2⟩ := feedAll_cons_ok.mp h
    rcases ih h2 with h3 | ⟨r', hr', h3⟩
    · rcases addPassedRange_cases r.chrom r.beginPos r.endPos s with
        ⟨_, h4⟩ | ⟨_, _, _, h4⟩ | ⟨ho, hc, _, _, h4⟩
      · rw [h4] at h1; cases h1
        by_cases hc : r.chrom = ""
        · rw [hc, destruct_updateCurrent_of_unnamed] at h3
          exact Or.inl h3
        · rw [destruct_updateCurrent_of_named hc, List.mem_append, List.mem_singleton] at h3
          rcases h3 with h3 | h3
          · exact Or.inl h3
          · exact Or.inr ⟨r, List.mem_cons_self _ _, by rw [h3]⟩
      · rw [h4] at h1; cases h1
      · rw [h4] at h1; cases h1
        rw [destruct_outfp_of_open (s := { s with _currentEndPos := max r.endPos s._currentEndPos }) ho,
          List.mem_append, List.mem_singleton] at h3
        rcases h3 with h3 | h3
        · exact Or.inl (by rw [destruct_outfp_of_open ho]; exact List.mem_append_left _ h3)
        · exact Or.inr ⟨r, List.mem_cons_self _ _, by rw [h3]; exact hc.symm⟩
    · exact Or.inr ⟨r', List.mem_cons_of_mem _ hr', h3⟩

/-! ### Runs on begin-sorted input succeed -/

theorem feedAll_ok_of_sorted {rs : List GenomicInterval}
    (hs : rs.Pairwise (fun a b => a.beginPos ≤ b.beginPos)) {s : CallRegionVcfRecordHandler}
    (h0 : s._currentChrom ≠ "" → ∀ r ∈ rs, s._currentBeginPos ≤ r.beginPos) :
    ∃ s', feedAll rs s = .ok s' := by
  induction rs generalizing s with
  | nil => exact ⟨s, rfl⟩
  | cons r rs ih =>
    rw [List.pairwise_cons] at hs
    rcases addPassedRange_cases r.chrom r.beginPos r.endPos s with
      ⟨_, h1⟩ | ⟨ho, _, hlt, _⟩ | ⟨ho, _, _, _, h1⟩
    · obtain ⟨s', h2⟩ := ih hs.2 (s := updateCurrent r.chrom r.beginPos r.endPos s)
        (fun _ r' hr' => by simpa [updateCurrent] using hs.1 r' hr')
      exact ⟨s', feedAll_cons_ok.mpr ⟨_, h1, h2⟩⟩
    · exact absurd (h0 ho r (List.mem_cons_self _ _)) (Nat.not_le_of_lt hlt)
    · obtain ⟨s', h2⟩ := ih hs.2 (s := { s with _currentEndPos := max r.endPos s._currentEndPos })
        (fun _ r' hr' => h0 ho r' (List.mem_cons_of_mem _ hr'))
      exact ⟨s', feedAll_cons_ok.mpr ⟨_, h1, h2⟩⟩

/-! ### Separation of the output -/

theorem settled_construct (a b : Nat) : (construct a b).Settled :=
  ⟨fun _ => rfl, fun l hl => by simp [construct] at hl, by simp [destruct, writeCurrent, construct]⟩

theorem settled_named_destruct {s : CallRegionVcfRecordHandler} (hs : s.Settled) :
    ∀ l ∈ (destruct s).outfp, l.chrom ≠ "" := by
  intro l hl
  by_cases ho : s._currentChrom = ""
  · rw [destruct_outfp_of_empty ho] at hl
    exact hs.named l hl
  · rw [destruct_outfp_of_open ho, List.mem_append, List.mem_singleton] at hl
    rcases hl with hl | hl
    · exact hs.named l hl
    · rw [hl]; exact ho

/-- A successful call with a named range keeps the engine settled. -/
theorem settled_addPassedRange {c : String} {b e : Nat} {s s' : CallRegionVcfRecordHandler}
    (hs : s.Settled) (hc : c ≠ "") (h : addPassedRange c b e s = .ok s') : s'.Settled := by
  rcases addPassedRange_cases c b e s with ⟨hcase, h1⟩ | ⟨_, _, _, h1⟩ | ⟨ho, hcc, _, _, h1⟩
  · rw [h1] at h; cases h
    refine ⟨fun h2 => absurd ((updateCurrent_chrom c b e s).symm.trans h2) hc, ?_, ?_⟩
    · rw [updateCurrent_outfp]; exact settled_named_destruct hs
    · rw [destruct_updateCurrent_of_named hc, List.chain'_append]
      refine ⟨hs.apart, List.chain'_singleton _, ?_⟩
      intro x hx y hy
      simp only [List.head?_cons, Option.mem_def, Option.some.injEq] at hy
      subst hy
      by_cases ho : s._currentChrom = ""
      · rw [destruct_outfp_of_empty ho, hs.nothing_written ho] at hx
        simp at hx
      · rw [destruct_outfp_of_open ho, List.getLast?_concat] at hx
        simp only [Option.mem_def, Option.some.injEq] at hx
        subst hx
        rcases hcase with h3 | h3 | h3
        · exact absurd h3 ho
        · exact Or.inl h3
        · exact Or.inr h3
  · rw [h1] at h; cases h
  · rw [h1] at h; cases h
    refine ⟨fun h2 => absurd h2 ho, hs.named, ?_⟩
    have h3 := hs.apart
    rw [destruct_outfp_of_open ho, List.chain'_append] at h3
    rw [destruct_outfp_of_open (s := { s with _currentEndPos := max e s._currentEndPos }) ho,
      List.chain'_append]
    refine ⟨h3.1, List.chain'_singleton _, ?_⟩
    intro x hx y hy
    simp only [List.head?_cons, Option.mem_def, Option.some.injEq] at hy
    subst hy
    exact h3.2.2 x hx s.current (by simp)

/-- A successful sequence of calls with named ranges keeps the engine settled. -/
theorem settled_feedAll {rs : List GenomicInterval} {s s' : CallRegionVcfRecordHandler}
    (hs : s.Settled) (hn : ∀ r ∈ rs, r.chrom ≠ "") (h : feedAll rs s = .ok s') : s'.Settled := by
  induction rs generalizing s with
  | nil =>
    simp only [feedAll, Except.ok.injEq] at h
    subst h
    exact hs
  | cons r rs ih =>
    obtain ⟨s1, h1, h2⟩ := feedAll_cons_ok.mp h
    exact ih (settled_addPassedRange hs (hn r (List.mem_cons_self _ _)) h1)
      (fun r' hr' => hn r' (List.mem_cons_of_mem _ hr')) h2

/-- A property of `(beginPos, endPos)` that survives enlarging the end, and
that every fed range has, is had by every line of the complete output. -/
theorem width_of_mem_feedAll (P : Nat → Nat → Prop)
    (hP : ∀ b e e', P b e → e ≤ e' → P b e') {rs : List GenomicInterval}
    {s s' : CallRegionVcfRecordHandler}
    (h : feedAll rs s = .ok s') (hr : ∀ r ∈ rs, P r.beginPos r.endPos)
    (h0 : ∀ l ∈ (destruct s).outfp, P l.beginPos l.endPos) :
    ∀ l ∈ (destruct s').outfp, P l.beginPos l.endPos := by
  induction rs generalizing s with
  | nil =>
    simp only [feedAll, Except.ok.injEq] at h
    subst h
    exact h0
  | cons r rs ih =>
    obtain ⟨s1, h1, h2⟩ := feedAll_cons_ok.mp h
    refine ih h2 (fun r' hr' => hr r' (List.mem_cons_of_mem _ hr')) ?_
    have hr0 := hr r (List.mem_cons_self _ _)
    rcases addPassedRange_cases r.chrom r.beginPos r.endPos s with
      ⟨_, h4⟩ | ⟨_, _, _, h4⟩ | ⟨ho, hc, hb, _, h4⟩
    · rw [h4] at h1; cases h1
      by_cases hc : r.chrom = ""
      · rw [hc, destruct_updateCurrent_of_unnamed]; exact h0
      · rw [destruct_updateCurrent_of_named hc]
        intro l hl
        rw [List.mem_append, List.mem_singleton] at hl
        rcases hl with hl | hl
        · exact h0 l hl
        · rw [hl]; exact hr0
    · rw [h4] at h1; cases h1
    · rw [h4] at h1; cases h1
      rw [destruct_outfp_of_open ho] at h0
      rw [destruct_outfp_of_open (s := { s with _currentEndPos := max r.endPos s._currentEndPos }) ho]
      intro l hl
      rw [List.mem_append, List.mem_singleton] at hl
      rcases hl with hl | hl
      · exact h0 l (List.mem_append_left _ hl)
      · rw [hl]
        have := h0 s.current (by simp)
        simp only [current] at this ⊢
        exact hP _ _ _ this (le_max_right _ _)

/-! ### What was written earlier does not matter -/

theorem afterOutput_addPassedRange (p : List GenomicInterval) (c : String) (b e : Nat)
    (s : CallRegionVcfRecordHandler) :
    addPassedRange c b e (afterOutput p s) =
      match addPassedRange c b e s with
      | .ok s' => .ok (afterOutput p s')
      | .error f => .error f := by
  by_cases h1 : s._currentChrom = ""
  · simp [addPassedRange, updateCurrent, writeCurrent, afterOutput, h1]
  · by_cases h2 : s._currentChrom = c
    · subst h2
      by_cases h3 : s._currentBeginPos ≤ b
      · by_cases h4 : s._currentEndPos < b
        · simp [addPassedRange, updateCurrent, writeCurrent, afterOutput, h1, h3, h4]
        · simp [addPassedRange, updateCurrent, writeCurrent, afterOutput, h1, h3, h4]
      · simp [addPassedRange, updateCurrent, writeCurrent, afterOutput, h1, h3]
    · simp [addPassedRange, updateCurrent, writeCurrent, afterOutput, h1, h2]

theorem afterOutput_feedAll (p : List GenomicInterval) (rs : List GenomicInterval)
    (s : CallRegionVcfRecordHandler) :
    feedAll rs (afterOutput p s) =
      match feedAll rs s with
      | .ok s' => .ok (afterOutput p s')
      | .error f => .error f := by
  induction rs generalizing s with
  | nil => rfl
  | cons r rs ih =>
    simp only [feedAll, afterOutput_addPassedRange]
    cases h : addPassedRange r.chrom r.beginPos r.endPos s with
    | ok s1 => simpa using ih s1
    | error f => rfl

theorem afterOutput_destruct (p : List GenomicInterval) (s : CallRegionVcfRecordHandler) :
    (destruct (afterOutput p s)).outfp = p ++ (destruct s).outfp := by
  simp only [destruct, writeCurrent, afterOutput]
  split_ifs <;> simp

/-- The first call on a fresh engine overwrites the uninitialised members. -/
theorem addPassedRange_construct (c : String) (b e a1 a2 : Nat) :
    addPassedRange c b e (construct a1 a2) = .ok ⟨[], c, b, e⟩ := by
  simp [addPassedRange, updateCurrent, writeCurrent, construct]

/-- The complete output does not depend on the uninitialised members. -/
theorem run_uninit (a1 a2 b1 b2 : Nat) (rs : List GenomicInterval) :
    run a1 a2 rs = run b1 b2 rs := by
  cases rs with
  | nil => simp [run, feedAll, destruct, writeCurrent, construct]
  | cons r rs => simp only [run, feedAll, addPassedRange_construct]

/-- After a successful non-empty sequence of calls the current chromosome is
the one of the last range. -/
theorem feedAll_chrom_getLast {rs : List GenomicInterval} {s s' : CallRegionVcfRecordHandler}
    (h : feedAll rs s = .ok s') : ∀ x ∈ rs.getLast?, s'._currentChrom = x.chrom := by
  intro x hx
  rcases List.eq_nil_or_concat rs with h0 | ⟨L, y, h0⟩
  · subst h0; simp at hx
  · rw [List.concat_eq_append] at h0
    subst h0
    rw [List.getLast?_concat] at hx
    simp only [Option.mem_def, Option.some.injEq] at hx
    subst hx
    rw [feedAll_append] at h
    cases h1 : feedAll L s with
    | error f => rw [h1] at h; cases h
    | ok s1 =>
      rw [h1] at h
      obtain ⟨s2, h2, h3⟩ := feedAll_cons_ok.mp h
      simp only [feedAll, Except.ok.injEq] at h3
      subst h3
      exact addPassedRange_chrom h2

/-- A range on another chromosome than the current one closes the open
interval, whatever the coordinates. -/
theorem addPassedRange_other_chrom {c : String} (b e : Nat) {s : CallRegionVcfRecordHandler}
    (h : s._currentChrom ≠ c) :
    addPassedRange c b e s = .ok (afterOutput (destruct s).outfp ⟨[], c, b, e⟩) := by
  simp only [addPassedRange, updateCurrent, afterOutput, destruct]
  split_ifs <;> simp_all

/-- A range kept apart from the open interval closes it. -/
theorem addPassedRange_of_keptApart {c : String} {b e : Nat} {s : CallRegionVcfRecordHandler}
    (ho : s._currentChrom ≠ "") (h : KeptApart s.current ⟨c, b, e⟩) :
    addPassedRange c b e s = .ok ⟨s.outfp ++ [s.current], c, b, e⟩ := by
  rcases addPassedRange_cases c b e s with ⟨_, h1⟩ | ⟨_, hc, hb, _⟩ | ⟨_, hc, _, hb, _⟩
  · rw [h1, updateCurrent, writeCurrent_of_open ho]
  · rcases h with h | h
    · exact absurd hc h
    · exact absurd h.1 (Nat.not_le_of_lt hb)
  · rcases h with h | h
    · exact absurd hc h
    · exact absurd h.2 (Nat.not_lt_of_le hb)

/-- A list of named lines whose consecutive members are kept apart passes
through the engine unchanged. -/
theorem feedAll_of_keptApart (L : List GenomicInterval) (cur : GenomicInterval)
    (p : List GenomicInterval) (hcur : cur.chrom ≠ "") (hn : ∀ l ∈ L, l.chrom ≠ "")
    (hch : List.Chain KeptApart cur L) :
    ∃ s', feedAll L ⟨p, cur.chrom, cur.beginPos, cur.endPos⟩ = .ok s' ∧
      (destruct s').outfp = p ++ cur :: L := by
  induction L generalizing cur p with
  | nil =>
    refine ⟨_, rfl, ?_⟩
    simp [destruct, writeCurrent, hcur]
  | cons l L ih =>
    rw [List.chain_cons] at hch
    obtain ⟨s', h1, h2⟩ := ih l (p ++ [cur]) (hn l (List.mem_cons_self _ _))
      (fun l' hl' => hn l' (List.mem_cons_of_mem _ hl')) hch.2
    refine ⟨s', feedAll_cons_ok.mpr ⟨_, ?_, h1⟩, by simpa using h2⟩
    exact addPassedRange_of_keptApart (s := ⟨p, cur.chrom, cur.beginPos, cur.endPos⟩) hcur hch.1

theorem unionOf_eq_unionOn {c : String} {L : List GenomicInterval}
    (h : ∀ l ∈ L, l.chrom = c) : unionOf L = unionOn c L := by
  ext x
  simp only [unionOf, unionOn, Set.mem_setOf_eq]
  constructor
  · rintro ⟨l, hl, hx⟩
    exact ⟨l, hl, h l hl, hx⟩
  · rintro ⟨l, hl, _, hx⟩
    exact ⟨l, hl, hx⟩

theorem destruct_construct_outfp (a b : Nat) : (destruct (construct a b)).outfp = [] := by
  simp [destruct, writeCurrent, construct]

/-! ### Separated covers are unique and shortest -/

theorem mem_unionOf_cons {x : GenomicInterval} {X : List GenomicInterval} {y : Nat} :
    y ∈ unionOf (x :: X) ↔ (x.beginPos ≤ y ∧ y < x.endPos) ∨ y ∈ unionOf X := by
  simp [unionOf]

theorem unionOf_nil : unionOf [] = ∅ := by
  ext x; simp [unionOf]

theorem Canonical.tail {x : GenomicInterval} {X : List GenomicInterval}
    (h : Canonical (x :: X)) : Canonical X :=
  ⟨fun l hl => h.1 l (List.mem_cons_of_mem _ hl), (List.pairwise_cons.mp h.2).2⟩

theorem Canonical.lt_of_mem_tail {x : GenomicInterval} {X : List GenomicInterval}
    (h : Canonical (x :: X)) {y : Nat} (hy : y ∈ unionOf X) : x.endPos < y := by
  obtain ⟨l, hl, h1, _⟩ := hy
  exact lt_of_lt_of_le ((List.pairwise_cons.mp h.2).1 l hl) h1

theorem Canonical.head_le {x : GenomicInterval} {X : List GenomicInterval}
    (h : Canonical (x :: X)) {y : Nat} (hy : y ∈ unionOf (x :: X)) : x.beginPos ≤ y := by
  rcases mem_unionOf_cons.mp hy with h1 | h1
  · exact h1.1
  · have := h.lt_of_mem_tail h1
    have := h.1 x (List.mem_cons_self _ _)
    omega

theorem mem_unionOf_head {x : GenomicInterval} {X : List GenomicInterval}
    {y : Nat} (h1 : x.beginPos ≤ y) (h2 : y < x.endPos) : y ∈ unionOf (x :: X) :=
  mem_unionOf_cons.mpr (Or.inl ⟨h1, h2⟩)

theorem Canonical.end_not_mem {x : GenomicInterval} {X : List GenomicInterval}
    (h : Canonical (x :: X)) : x.endPos ∉ unionOf (x :: X) := by
  intro hy
  rcases mem_unionOf_cons.mp hy with h1 | h1
  · exact absurd h1.2 (lt_irrefl _)
  · exact absurd (h.lt_of_mem_tail h1) (lt_irrefl _)

theorem Canonical.mem_tail_iff {x : GenomicInterval} {X : List GenomicInterval}
    (h : Canonical (x :: X)) {y : Nat} :
    y ∈ unionOf X ↔ y ∈ unionOf (x :: X) ∧ x.endPos ≤ y := by
  constructor
  · intro hy
    exact ⟨mem_unionOf_cons.mpr (Or.inr hy), Nat.le_of_lt (h.lt_of_mem_tail hy)⟩
  · rintro ⟨hy, h1⟩
    rcases mem_unionOf_cons.mp hy with h2 | h2
    · omega
    · exact h2

/-- Two canonical lists with the same union have the same spans, in the same
order. -/
theorem Canonical.span_unique {L M : List GenomicInterval} (hL : Canonical L)
    (hM : Canonical M) (h : unionOf L = unionOf M) :
    L.map GenomicInterval.span = M.map GenomicInterval.span := by
  induction L generalizing M with
  | nil =>
    cases M with
    | nil => rfl
    | cons m M =>
      have : m.beginPos ∈ unionOf (m :: M) :=
        mem_unionOf_head (le_refl _) (hM.1 m (List.mem_cons_self _ _))
      rw [← h, unionOf_nil] at this
      exact absurd this (Set.not_mem_empty _)
  | cons a A ih =>
    cases M with
    | nil =>
      have : a.beginPos ∈ unionOf (a :: A) :=
        mem_unionOf_head (le_refl _) (hL.1 a (List.mem_cons_self _ _))
      rw [h, unionOf_nil] at this
      exact absurd this (Set.not_mem_empty _)
    | cons m M =>
      have ha := hL.1 a (List.mem_cons_self _ _)
      have hm := hM.1 m (List.mem_cons_self _ _)
      have hb : a.beginPos = m.beginPos := by
        have h1 : m.beginPos ≤ a.beginPos :=
          hM.head_le (h ▸ mem_unionOf_head (le_refl _) ha)
        have h2 : a.beginPos ≤ m.beginPos :=
          hL.head_le (h.symm ▸ mem_unionOf_head (le_refl _) hm)
        omega
      have he : a.endPos = m.endPos := by
        rcases Nat.lt_trichotomy a.endPos m.endPos with h1 | h1 | h1
        · exact absurd (h.symm ▸ mem_unionOf_head (by omega) h1) hL.end_not_mem
        · exact h1
        · exact absurd (h ▸ mem_unionOf_head (by omega) h1) hM.end_not_mem
      have ht : unionOf A = unionOf M := by
        ext y
        rw [hL.mem_tail_iff, hM.mem_tail_iff, h, he]
      simp only [List.map_cons, GenomicInterval.span, hb, he]
      exact congrArg _ (ih hL.tail hM.tail ht)

/-- No list of intervals with the same union is shorter than a canonical one. -/
theorem Canonical.length_le {O : List GenomicInterval} (hO : Canonical O)
    {L : List GenomicInterval} (h : unionOf L = unionOf O) : O.length ≤ L.length := by
  induction O generalizing L with
  | nil => exact Nat.zero_le _
  | cons o O ih =>
    have ho := hO.1 o (List.mem_cons_self _ _)
    have hrest : unionOf (L.filter (fun l => decide (o.endPos ≤ l.beginPos))) = unionOf O := by
      ext y
      rw [hO.mem_tail_iff, ← h]
      constructor
      · rintro ⟨l, hl, h1, h2⟩
        rw [List.mem_filter, decide_eq_true_eq] at hl
        exact ⟨⟨l, hl.1, h1, h2⟩, le_trans hl.2 h1⟩
      · rintro ⟨⟨l, hl, h1, h2⟩, h3⟩
        refine ⟨l, List.mem_filter.mpr ⟨hl, decide_eq_true ?_⟩, h1, h2⟩
        by_contra h4
        have : o.endPos ∈ unionOf L := ⟨l, hl, by omega, by omega⟩
        rw [h] at this
        exact hO.end_not_mem this
    have hlt : (L.filter (fun l => decide (o.endPos ≤ l.beginPos))).length < L.length := by
      rw [List.length_filter_lt_length_iff_exists]
      have : o.beginPos ∈ unionOf L := h ▸ mem_unionOf_head (le_refl _) ho
      obtain ⟨l, hl, h1, _⟩ := this
      exact ⟨l, hl, by simp only [decide_eq_true_eq]; omega⟩
    have := ih hO.tail hrest
    simp only [List.length_cons]
    omega

theorem unionOf_positiveWidth (L : List GenomicInterval) :
    unionOf (positiveWidth L) = unionOf L := by
  ext y
  simp only [unionOf, positiveWidth, Set.mem_setOf_eq, List.mem_filter, decide_eq_true_eq]
  constructor
  · rintro ⟨l, ⟨hl, _⟩, h⟩
    exact ⟨l, hl, h⟩
  · rintro ⟨l, hl, h1, h2⟩
    exact ⟨l, ⟨hl, lt_of_le_of_lt h1 h2⟩, h1, h2⟩

/-! ## The claims -/

/-- C1 (merge correctness, coverage): for ranges that all carry one non-empty
chromosome name, fed to a freshly constructed engine in non-decreasing
`beginPos` order, every call succeeds, and the union of the half-open intervals
of the complete output (the lines written during the feeds and the line written
by the destructor) equals the union of the fed intervals; every output line is
on that chromosome.  The bound `beginPos ≤ endPos` of the claim is not needed. -/
theorem merge_covers_union (c : String) (hc : c ≠ "") (rs : List GenomicInterval)
    (hchrom : ∀ r ∈ rs, r.chrom = c)
    (hsorted : rs.Pairwise (fun a b => a.beginPos ≤ b.beginPos))
    (uninitBegin uninitEnd : Nat) :
    ∃ out, run uninitBegin uninitEnd rs = .ok out ∧ unionOf out = unionOf rs ∧
      ∀ l ∈ out, l.chrom = c := by
  obtain ⟨s', hs'⟩ := feedAll_ok_of_sorted hsorted (s := construct uninitBegin uninitEnd)
    (fun h => absurd rfl h)
  have hout : ∀ l ∈ (destruct s').outfp, l.chrom = c := by
    intro l hl
    rcases chrom_of_mem_feedAll hs' hl with h1 | ⟨r, hr, h1⟩
    · rw [destruct_construct_outfp] at h1
      simp at h1
    · rw [← h1]; exact hchrom r hr
  refine ⟨(destruct s').outfp, run_ok_iff.mpr ⟨s', hs', rfl⟩, ?_, hout⟩
  rw [unionOf_eq_unionOn hout, unionOf_eq_unionOn hchrom, unionOn_feedAll hs' hc,
    destruct_construct_outfp, unionOn_nil, Set.empty_union]

/-- Witness of C1 on three ranges of `chr1`, the first two overlapping. -/
theorem merge_covers_union_witness :
    ∃ out, run 3 4 [⟨"chr1", 10, 20⟩, ⟨"chr1", 15, 30⟩, ⟨"chr1", 40, 50⟩] = .ok out ∧
      unionOf out = unionOf [⟨"chr1", 10, 20⟩, ⟨"chr1", 15, 30⟩, ⟨"chr1", 40, 50⟩] ∧
      ∀ l ∈ out, l.chrom = "chr1" :=
  merge_covers_union "chr1" (by decide) [⟨"chr1", 10, 20⟩, ⟨"chr1", 15, 30⟩, ⟨"chr1", 40, 50⟩]
    (by decide) (by decide) 3 4

/-- C2, as the spec states it, fails where a range of zero width is fed: the
ranges `chr1 10 20`, `chr1 25 25` carry one non-empty name, have `beginPos ≤
endPos` and are in non-decreasing `beginPos` order, and the engine writes both
as lines; the single line `chr1 10 20` has the same union as the input and as
the output and is separated, so the emitted set is neither minimal nor the only
separated set with that union. -/
theorem merge_output_not_minimal :
    (∀ r ∈ [(⟨"chr1", 10, 20⟩ : GenomicInterval), ⟨"chr1", 25, 25⟩],
        r.chrom = "chr1" ∧ r.beginPos ≤ r.endPos) ∧
      [(⟨"chr1", 10, 20⟩ : GenomicInterval), ⟨"chr1", 25, 25⟩].Pairwise
        (fun a b => a.beginPos ≤ b.beginPos) ∧
      run 0 0 [⟨"chr1", 10, 20⟩, ⟨"chr1", 25, 25⟩] =
        .ok [⟨"chr1", 10, 20⟩, ⟨"chr1", 25, 25⟩] ∧
      unionOf [⟨"chr1", 10, 20⟩] = unionOf [⟨"chr1", 10, 20⟩, ⟨"chr1", 25, 25⟩] ∧
      [(⟨"chr1", 10, 20⟩ : GenomicInterval)].Chain' (fun a b => a.endPos < b.beginPos) ∧
      [(⟨"chr1", 10, 20⟩ : GenomicInterval)].length <
        [(⟨"chr1", 10, 20⟩ : GenomicInterval), ⟨"chr1", 25, 25⟩].length ∧
      ¬ (∀ L : List GenomicInterval,
          unionOf L = unionOf [⟨"chr1", 10, 20⟩, ⟨"chr1", 25, 25⟩] →
            [(⟨"chr1", 10, 20⟩ : GenomicInterval), ⟨"chr1", 25, 25⟩].length ≤ L.length) := by
  have hun : unionOf [⟨"chr1", 10, 20⟩] =
      unionOf [⟨"chr1", 10, 20⟩, ⟨"chr1", 25, 25⟩] := by
    ext x
    simp only [unionOf, Set.mem_setOf_eq, List.mem_cons, List.mem_singleton,
      List.not_mem_nil, or_false]
    constructor
    · rintro ⟨l, hl, h1, h2⟩
      exact ⟨l, Or.inl hl, h1, h2⟩
    · rintro ⟨l, hl | hl, h1, h2⟩
      · exact ⟨l, hl, h1, h2⟩
      · subst hl
        simp only at h1 h2
        omega
  refine ⟨by decide, by decide, by decide, hun, List.chain'_singleton _, by decide, ?_⟩
  intro h
  exact absurd (h [⟨"chr1", 10, 20⟩] hun) (by decide)

/-- C2, amended: for ranges that all carry one non-empty chromosome name, each
with `beginPos ≤ endPos`, fed to a freshly constructed engine in non-decreasing
`beginPos` order, every call succeeds and the complete output is strictly
ordered and separated: each line ends strictly before the next one begins, and
more generally any earlier line begins and ends strictly before any later line
begins, so that no two lines overlap or abut; no line is inverted and all are
on that chromosome.  The lines that cover something form the unique minimal
cover: they are canonical, their union is the union of the input, no list of
intervals with that union is shorter, and every canonical list with that union
has the same spans.  A line covers nothing only if a range of zero width was
fed: when every fed range has `beginPos < endPos`, every line covers something
and the emitted set itself is that unique minimal cover. -/
theorem merge_output_separated (c : String) (hc : c ≠ "") (rs : List GenomicInterval)
    (hchrom : ∀ r ∈ rs, r.chrom = c) (hord : ∀ r ∈ rs, r.beginPos ≤ r.endPos)
    (hsorted : rs.Pairwise (fun a b => a.beginPos ≤ b.beginPos))
    (uninitBegin uninitEnd : Nat) :
    ∃ out, run uninitBegin uninitEnd rs = .ok out ∧
      out.Chain' (fun a b => a.endPos < b.beginPos) ∧
      out.Pairwise (fun a b => a.beginPos < b.beginPos ∧ a.endPos < b.beginPos) ∧
      (∀ l ∈ out, l.chrom = c ∧ l.beginPos ≤ l.endPos) ∧
      Canonical (positiveWidth out) ∧
      unionOf (positiveWidth out) = unionOf rs ∧
      (∀ L, unionOf L = unionOf rs → (positiveWidth out).length ≤ L.length) ∧
      (∀ L, Canonical L → unionOf L = unionOf rs →
        L.map GenomicInterval.span = (positiveWidth out).map GenomicInterval.span) ∧
      ((∀ r ∈ rs, r.beginPos < r.endPos) → positiveWidth out = out) := by
  obtain ⟨s', hs'⟩ := feedAll_ok_of_sorted hsorted (s := construct uninitBegin uninitEnd)
    (fun h => absurd rfl h)
  have hnamed : ∀ r ∈ rs, r.chrom ≠ "" := fun r hr => by rw [hchrom r hr]; exact hc
  have hset := settled_feedAll (settled_construct uninitBegin uninitEnd) hnamed hs'
  have hout : ∀ l ∈ (destruct s').outfp, l.chrom = c := by
    intro l hl
    rcases chrom_of_mem_feedAll hs' hl with h1 | ⟨r, hr, h1⟩
    · rw [destruct_construct_outfp] at h1
      simp at h1
    · rw [← h1]; exact hchrom r hr
  have hle : ∀ l ∈ (destruct s').outfp, l.beginPos ≤ l.endPos :=
    width_of_mem_feedAll (fun b e => b ≤ e) (fun _ _ _ h1 h2 => le_trans h1 h2) hs' hord
      (by rw [destruct_construct_outfp]; simp)
  have hgap : (destruct s').outfp.Chain' StrictGap := by
    refine (List.Chain'.iff_mem.mp hset.apart).imp ?_
    rintro a b ⟨ha, hb, hab⟩
    rcases hab with hab | hab
    · exact absurd ((hout a ha).trans (hout b hb).symm) hab
    · exact ⟨hab.2, hle b hb⟩
  have hpw : (destruct s').outfp.Pairwise (fun a b => a.endPos < b.beginPos) :=
    (List.chain'_iff_pairwise.mp hgap).imp (fun h => h.1)
  have hcan : Canonical (positiveWidth (destruct s').outfp) :=
    ⟨fun l hl => by simpa using (List.mem_filter.mp hl).2, hpw.filter _⟩
  have hun : unionOf (positiveWidth (destruct s').outfp) = unionOf rs := by
    rw [unionOf_positiveWidth, unionOf_eq_unionOn hout, unionOf_eq_unionOn hchrom,
      unionOn_feedAll hs' hc, destruct_construct_outfp, unionOn_nil, Set.empty_union]
  refine ⟨(destruct s').outfp, run_ok_iff.mpr ⟨s', hs', rfl⟩, hgap.imp (fun _ _ h => h.1), ?_,
    fun l hl => ⟨hout l hl, hle l hl⟩, hcan, hun, ?_, ?_, ?_⟩
  · refine (List.chain'_iff_pairwise.mp hgap).imp_of_mem ?_
    intro a b ha _ hab
    exact ⟨lt_of_le_of_lt (hle a ha) hab.1, hab.1⟩
  · intro L hL
    exact hcan.length_le (hL.trans hun.symm)
  · intro L hL hLu
    exact hL.span_unique hcan (hLu.trans hun.symm)
  · intro hpos
    have hlt : ∀ l ∈ (destruct s').outfp, l.beginPos < l.endPos :=
      width_of_mem_feedAll (fun b e => b < e) (fun _ _ _ h1 h2 => lt_of_lt_of_le h1 h2) hs'
        hpos (by rw [destruct_construct_outfp]; simp)
    exact List.filter_eq_self.mpr (fun l hl => by simpa using hlt l hl)

/-- Witness of C2 on four ranges of `chr1`: two overlapping, one abutting the
merged pair, one after a gap. -/
theorem merge_output_separated_witness :
    ∃ out, run 3 4 [⟨"chr1", 10, 20⟩, ⟨"chr1", 15, 30⟩, ⟨"chr1", 30, 31⟩, ⟨"chr1", 40, 50⟩]
        = .ok out ∧ out.Chain' (fun a b => a.endPos < b.beginPos) :=
  have ⟨out, h1, h2, _⟩ := merge_output_separated "chr1" (by decide)
    [⟨"chr1", 10, 20⟩, ⟨"chr1", 15, 30⟩, ⟨"chr1", 30, 31⟩, ⟨"chr1", 40, 50⟩]
    (by decide) (by decide) (by decide) 3 4
  ⟨out, h1, h2⟩

/-- C3 (chromosome isolation): when the last range of `xs` and the first range
of `ys` lie on different chromosomes and the engine runs through `xs` alone and
through `ys` alone without failure, it runs through `xs ++ ys` without failure
and the complete output is the complete output for `xs` followed by the complete
output for `ys`, whatever the coordinates.  (The names need not even be
non-empty, and an empty `xs` or `ys` is allowed.) -/
theorem chromosome_isolation (xs ys : List GenomicInterval)
    (hdiff : ∀ x ∈ xs.getLast?, ∀ y ∈ ys.head?, x.chrom ≠ y.chrom)
    (a1 a2 b1 b2 c1 c2 : Nat) (ox oy : List GenomicInterval)
    (hx : run a1 a2 xs = .ok ox) (hy : run b1 b2 ys = .ok oy) :
    run c1 c2 (xs ++ ys) = .ok (ox ++ oy) := by
  cases ys with
  | nil =>
    have : oy = [] := by
      simpa [run, feedAll, destruct, writeCurrent, construct] using hy.symm
    subst this
    simpa [run_uninit c1 c2 a1 a2] using hx
  | cons y ys =>
    cases hxs : xs.getLast? with
    | none =>
      rw [List.getLast?_eq_none_iff] at hxs
      subst hxs
      have : ox = [] := by
        simpa [run, feedAll, destruct, writeCurrent, construct] using hx.symm
      subst this
      simpa [run_uninit c1 c2 b1 b2] using hy
    | some x =>
      rw [run_uninit a1 a2 c1 c2] at hx
      obtain ⟨s1, hs1, ho1⟩ := run_ok_iff.mp hx
      obtain ⟨s2, hs2, ho2⟩ := run_ok_iff.mp hy
      simp only [feedAll, addPassedRange_construct] at hs2
      have hne : s1._currentChrom ≠ y.chrom := by
        rw [feedAll_chrom_getLast hs1 x hxs]
        exact hdiff x hxs y rfl
      refine run_ok_iff.mpr ⟨afterOutput ox s2, ?_, ?_⟩
      · rw [feedAll_append, hs1]
        simp only [feedAll, addPassedRange_other_chrom y.beginPos y.endPos hne, ho1,
          afterOutput_feedAll, hs2]
      · rw [afterOutput_destruct, ho2]

/-- Witness of C3: two overlapping ranges of `chr1`, then a range of `chr2`
whose coordinates overlap them. -/
theorem chromosome_isolation_witness :
    run 0 0 ([⟨"chr1", 10, 20⟩, ⟨"chr1", 15, 30⟩] ++ [⟨"chr2", 12, 18⟩]) =
      .ok ([⟨"chr1", 10, 30⟩] ++ [⟨"chr2", 12, 18⟩]) :=
  chromosome_isolation [⟨"chr1", 10, 20⟩, ⟨"chr1", 15, 30⟩] [⟨"chr2", 12, 18⟩]
    (by decide) 1 2 3 4 0 0 [⟨"chr1", 10, 30⟩] [⟨"chr2", 12, 18⟩] (by decide) (by decide)

/-- C4 (idempotence of re-merge): when the engine runs through ranges with
non-empty chromosome names without failure, feeding its complete output (the
lines written during the feeds and by the destructor) to a fresh engine
succeeds and gives exactly the same complete output. -/
theorem remerge_fixed_point (rs : List GenomicInterval) (hn : ∀ r ∈ rs, r.chrom ≠ "")
    (a1 a2 b1 b2 : Nat) (out : List GenomicInterval) (h : run a1 a2 rs = .ok out) :
    run b1 b2 out = .ok out := by
  obtain ⟨s, hs, ho⟩ := run_ok_iff.mp h
  have hset := settled_feedAll (settled_construct a1 a2) hn hs
  have hnamed := settled_named_destruct hset
  have hap := hset.apart
  rw [ho] at hnamed hap
  cases out with
  | nil => simp [run, feedAll, destruct, writeCurrent, construct]
  | cons l L =>
    obtain ⟨s', h1, h2⟩ := feedAll_of_keptApart L l [] (hnamed l (List.mem_cons_self _ _))
      (fun l' hl' => hnamed l' (List.mem_cons_of_mem _ hl')) hap
    refine run_ok_iff.mpr ⟨s', ?_, by simpa using h2⟩
    simp only [feedAll, addPassedRange_construct]
    exact h1

/-- Witness of C4 on ranges of two chromosomes with a merge and a gap. -/
theorem remerge_fixed_point_witness :
    run 5 6 [⟨"chr1", 10, 30⟩, ⟨"chr1", 40, 50⟩, ⟨"chr2", 12, 18⟩] =
      .ok [⟨"chr1", 10, 30⟩, ⟨"chr1", 40, 50⟩, ⟨"chr2", 12, 18⟩] :=
  remerge_fixed_point
    [⟨"chr1", 10, 20⟩, ⟨"chr1", 15, 30⟩, ⟨"chr1", 40, 50⟩, ⟨"chr2", 12, 18⟩]
    (by decide) 1 2 5 6 [⟨"chr1", 10, 30⟩, ⟨"chr1", 40, 50⟩, ⟨"chr2", 12, 18⟩] (by decide)

/-- C5 (abutment merges, a gap does not): with an interval open on chromosome
`c` (begin not after end), a range on `c` that begins exactly at
`_currentEndPos` is merged, nothing being written, the begin kept and the end
becoming the larger of the two ends; a range on `c` that begins at
`_currentEndPos + 1` makes the open interval be written and takes its place as
the open interval.  From a fresh engine, `("chr1",10,20)`, `("chr1",20,30)`
gives the complete output `chr1 10 30`, and `("chr1",10,20)`, `("chr1",21,30)`
gives `chr1 10 20`, `chr1 21 30`. -/
theorem abutment_merges_gap_splits (s : CallRegionVcfRecordHandler) (e : Nat)
    (ho : s._currentChrom ≠ "") (hbe : s._currentBeginPos ≤ s._currentEndPos) :
    addPassedRange s._currentChrom s._currentEndPos e s =
        .ok { s with _currentEndPos := max e s._currentEndPos } ∧
      addPassedRange s._currentChrom (s._currentEndPos + 1) e s =
        .ok { outfp := s.outfp ++ [s.current], _currentChrom := s._currentChrom,
              _currentBeginPos := s._currentEndPos + 1, _currentEndPos := e } ∧
      (∀ a1 a2, run a1 a2 [⟨"chr1", 10, 20⟩, ⟨"chr1", 20, 30⟩] = .ok [⟨"chr1", 10, 30⟩]) ∧
      (∀ a1 a2, run a1 a2 [⟨"chr1", 10, 20⟩, ⟨"chr1", 21, 30⟩] =
        .ok [⟨"chr1", 10, 20⟩, ⟨"chr1", 21, 30⟩]) := by
  refine ⟨?_, ?_, ?_, ?_⟩
  · simp [addPassedRange, ho, hbe]
  · exact addPassedRange_of_keptApart ho (Or.inr ⟨by simp [current]; omega, by simp [current]⟩)
  · intro a1 a2
    simp [run, feedAll, addPassedRange, updateCurrent, writeCurrent, construct, destruct]
  · intro a1 a2
    simp [run, feedAll, addPassedRange, updateCurrent, writeCurrent, construct, destruct]

/-- Witness of C5 at the open interval `chr1 10 20` with `chr1 3 4` already
written. -/
theorem abutment_merges_gap_splits_witness :
    addPassedRange "chr1" 20 30 ⟨[⟨"chr1", 3, 4⟩], "chr1", 10, 20⟩ =
        .ok ⟨[⟨"chr1", 3, 4⟩], "chr1", 10, 30⟩ ∧
      addPassedRange "chr1" 21 30 ⟨[⟨"chr1", 3, 4⟩], "chr1", 10, 20⟩ =
        .ok ⟨[⟨"chr1", 3, 4⟩, ⟨"chr1", 10, 20⟩], "chr1", 21, 30⟩ :=
  have h := abutment_merges_gap_splits ⟨[⟨"chr1", 3, 4⟩], "chr1", 10, 20⟩ 30
    (by decide) (by decide)
  ⟨h.1, h.2.1⟩

/-- C6 (end-of-stream flush): a single named range fed to a fresh engine
writes nothing during the feed, and the destructor then writes exactly that
range; `("chr1",5,15)` followed by the end of input gives exactly the line
`chr1 5 15`.  After any non-empty sequence of successful feeds of named ranges,
from any state, an interval is open and the destructor writes exactly one
further line, the open interval. -/
theorem end_of_stream_flush (c : String) (b e a1 a2 : Nat) (hc : c ≠ "")
    (rs : List GenomicInterval) (s s' : CallRegionVcfRecordHandler) (hne : rs ≠ [])
    (hn : ∀ r ∈ rs, r.chrom ≠ "") (h : feedAll rs s = .ok s') :
    (∃ s1, addPassedRange c b e (construct a1 a2) = .ok s1 ∧ s1.outfp = [] ∧
        (destruct s1).outfp = [⟨c, b, e⟩]) ∧
      run a1 a2 [⟨c, b, e⟩] = .ok [⟨c, b, e⟩] ∧
      run a1 a2 [⟨"chr1", 5, 15⟩] = .ok [⟨"chr1", 5, 15⟩] ∧
      s'._currentChrom ≠ "" ∧ (destruct s').outfp = s'.outfp ++ [s'.current] := by
  refine ⟨⟨_, addPassedRange_construct c b e a1 a2, rfl, ?_⟩, ?_, ?_, ?_⟩
  · simp [destruct, writeCurrent, hc]
  · simp [run, feedAll, addPassedRange_construct, destruct, writeCurrent, hc]
  · simp [run, feedAll, addPassedRange_construct, destruct, writeCurrent]
  · have hopen : s'._currentChrom ≠ "" := by
      cases hl : rs.getLast? with
      | none => exact absurd (List.getLast?_eq_none_iff.mp hl) hne
      | some x =>
        rw [feedAll_chrom_getLast h x hl]
        exact hn x (List.mem_of_getLast?_eq_some hl)
    exact ⟨hopen, destruct_outfp_of_open hopen⟩

/-- Witness of C6: one range into a fresh engine, and two feeds from a state
with an interval open on another chromosome. -/
theorem end_of_stream_flush_witness :
    run 8 9 [⟨"chrX", 1, 2⟩] = .ok [⟨"chrX", 1, 2⟩] ∧
      (destruct ⟨[⟨"chr1", 3, 4⟩], "chr2", 5, 9⟩).outfp =
        [⟨"chr1", 3, 4⟩] ++ [⟨"chr2", 5, 9⟩] :=
  have h := end_of_stream_flush "chrX" 1 2 8 9 (by decide)
    [⟨"chr2", 5, 7⟩, ⟨"chr2", 6, 9⟩] ⟨[], "chr1", 3, 4⟩ ⟨[⟨"chr1", 3, 4⟩], "chr2", 5, 9⟩
    (by decide) (by decide) (by decide)
  ⟨h.2.1, h.2.2.2.2⟩

/-- C7, as the spec states it, fails: with `chr1 5 15` open, `writeCurrent`
leaves the interval open, and a second call writes the line a second time. -/
theorem flush_not_idempotent :
    (writeCurrent ⟨[], "chr1", 5, 15⟩)._currentChrom ≠ "" ∧
      (writeCurrent ⟨[], "chr1", 5, 15⟩).outfp = [⟨"chr1", 5, 15⟩] ∧
      (writeCurrent (writeCurrent ⟨[], "chr1", 5, 15⟩)).outfp =
        [⟨"chr1", 5, 15⟩, ⟨"chr1", 5, 15⟩] ∧
      writeCurrent (writeCurrent ⟨[], "chr1", 5, 15⟩) ≠ writeCurrent ⟨[], "chr1", 5, 15⟩ := by
  decide

/-- C7, amended: `writeCurrent` writes the open interval if there is one and
never modifies the three members, so the interval stays open; calling it twice
in a row with an interval open writes the line twice; with no interval open it
writes nothing and leaves the state unchanged, so there a second call changes
nothing either. -/
theorem writeCurrent_keeps_state (s : CallRegionVcfRecordHandler) :
    (writeCurrent s)._currentChrom = s._currentChrom ∧
      (writeCurrent s)._currentBeginPos = s._currentBeginPos ∧
      (writeCurrent s)._currentEndPos = s._currentEndPos ∧
      (s._currentChrom ≠ "" →
        (writeCurrent s).outfp = s.outfp ++ [s.current] ∧
        (writeCurrent (writeCurrent s)).outfp = s.outfp ++ [s.current, s.current]) ∧
      (s._currentChrom = "" →
        writeCurrent s = s ∧ writeCurrent (writeCurrent s) = writeCurrent s) := by
  by_cases h : s._currentChrom = ""
  · simp [writeCurrent, h]
  · simp [writeCurrent, h, current]

/-- Witness of amended C7 at an engine with `chr1 5 15` open. -/
theorem writeCurrent_keeps_state_witness :
    (writeCurrent ⟨[], "chr1", 5, 15⟩).outfp = [] ++ [⟨"chr1", 5, 15⟩] ∧
      (writeCurrent (writeCurrent ⟨[], "chr1", 5, 15⟩)).outfp =
        [] ++ [⟨"chr1", 5, 15⟩, ⟨"chr1", 5, 15⟩] :=
  (writeCurrent_keeps_state ⟨[], "chr1", 5, 15⟩).2.2.2.1 (by decide)

/-! ### The boundary between `process_line` and the engine -/

theorem process_lineWith_forward {σ : Type} (U : VcfUtil)
    (callee : String → Nat → Nat → σ → Except Failure σ) (vparse : istream_line_splitter)
    (s : σ) (hnw : vparse.n_word = U.SAMPLE + 1) (hpass : vparse.word.getD U.FILT "" = "PASS")
    (hins : ((U.get_vcf_record_range vparse.word).2 + 1) % UNSIGNED_MODULUS ≠
      (U.get_vcf_record_range vparse.word).1)
    (hb : 0 < (U.get_vcf_record_range vparse.word).1)
    (hle : (U.get_vcf_record_range vparse.word).1 ≤ (U.get_vcf_record_range vparse.word).2) :
    process_lineWith U callee vparse s =
      callee (vparse.word.getD U.CHROM "") ((U.get_vcf_record_range vparse.word).1 - 1)
        (U.get_vcf_record_range vparse.word).2 s := by
  have he : 0 < (U.get_vcf_record_range vparse.word).2 := lt_of_lt_of_le hb hle
  unfold process_lineWith
  rw [if_neg (not_not.mpr hnw), if_neg (not_not.mpr hpass), if_neg hins,
    if_neg (not_not.mpr hb), if_neg (not_not.mpr he), if_neg (Nat.not_lt.mpr hle)]

theorem process_lineWith_not_passed {σ : Type} (U : VcfUtil)
    (callee : String → Nat → Nat → σ → Except Failure σ) (vparse : istream_line_splitter)
    (s : σ) (hnw : vparse.n_word = U.SAMPLE + 1) (hpass : vparse.word.getD U.FILT "" ≠ "PASS") :
    process_lineWith U callee vparse s = .ok s := by
  unfold process_lineWith
  rw [if_neg (not_not.mpr hnw), if_pos hpass]

theorem process_lineWith_insertion {σ : Type} (U : VcfUtil)
    (callee : String → Nat → Nat → σ → Except Failure σ) (vparse : istream_line_splitter)
    (s : σ) (hnw : vparse.n_word = U.SAMPLE + 1) (hpass : vparse.word.getD U.FILT "" = "PASS")
    (hins : ((U.get_vcf_record_range vparse.word).2 + 1) % UNSIGNED_MODULUS =
      (U.get_vcf_record_range vparse.word).1) :
    process_lineWith U callee vparse s = .ok s := by
  unfold process_lineWith
  rw [if_neg (not_not.mpr hnw), if_neg (not_not.mpr hpass), if_pos hins]

/-- C8 (coordinate conversion at the boundary): for a record with the expected
number of fields, `FILTER` equal to `PASS` and parsed 1-based range
`(rawBegin, rawEnd)` with `0 < rawBegin ≤ rawEnd` (an `unsigned` pair),
`process_line` is exactly one call `addPassedRange(chromosome, rawBegin - 1,
rawEnd)`, whatever the callee does, and `rawBegin - 1 < rawEnd`.  For every
line whatsoever, `process_line` returns without a call, or ends the run without
a call, or makes exactly one call, whose range has `beginPos < endPos`. -/
theorem process_line_forwards_half_open (U : VcfUtil) (vparse : istream_line_splitter)
    (rawBegin rawEnd : Nat) (hnw : vparse.n_word = U.SAMPLE + 1)
    (hpass : vparse.word.getD U.FILT "" = "PASS")
    (hrange : U.get_vcf_record_range vparse.word = (rawBegin, rawEnd))
    (hpos : 0 < rawBegin) (hle : rawBegin ≤ rawEnd) (hu : rawEnd < UNSIGNED_MODULUS) :
    (∀ (σ : Type) (callee : String → Nat → Nat → σ → Except Failure σ) (s : σ),
        process_lineWith U callee vparse s =
          callee (vparse.word.getD U.CHROM "") (rawBegin - 1) rawEnd s) ∧
      (∀ s, process_line U vparse s =
        addPassedRange (vparse.word.getD U.CHROM "") (rawBegin - 1) rawEnd s) ∧
      rawBegin - 1 < rawEnd ∧
      ∀ v : istream_line_splitter,
        (∀ (σ : Type) (callee : String → Nat → Nat → σ → Except Failure σ) (s : σ),
            process_lineWith U callee v s = .ok s) ∨
        (∃ f, ∀ (σ : Type) (callee : String → Nat → Nat → σ → Except Failure σ) (s : σ),
            process_lineWith U callee v s = .error f) ∨
        (∃ b e, b < e ∧
          ∀ (σ : Type) (callee : String → Nat → Nat → σ → Except Failure σ) (s : σ),
            process_lineWith U callee v s = callee (v.word.getD U.CHROM "") b e s) := by
  have hins : ((U.get_vcf_record_range vparse.word).2 + 1) % UNSIGNED_MODULUS ≠
      (U.get_vcf_record_range vparse.word).1 := by
    rw [hrange]
    simp only [UNSIGNED_MODULUS] at hu ⊢
    omega
  have hfwd : ∀ (σ : Type) (callee : String → Nat → Nat → σ → Except Failure σ) (s : σ),
      process_lineWith U callee vparse s =
        callee (vparse.word.getD U.CHROM "") (rawBegin - 1) rawEnd s := by
    intro σ callee s
    have := process_lineWith_forward U callee vparse s hnw hpass hins
      (by rw [hrange]; exact hpos) (by rw [hrange]; exact hle)
    rw [hrange] at this
    exact this
  refine ⟨hfwd, fun s => hfwd _ _ s, by omega, ?_⟩
  intro v
  by_cases h1 : v.n_word = U.SAMPLE + 1
  · by_cases h2 : v.word.getD U.FILT "" = "PASS"
    · by_cases h3 : ((U.get_vcf_record_range v.word).2 + 1) % UNSIGNED_MODULUS =
          (U.get_vcf_record_range v.word).1
      · exact Or.inl fun σ callee s => process_lineWith_insertion U callee v s h1 h2 h3
      · by_cases h4 : 0 < (U.get_vcf_record_range v.word).1
        · by_cases h5 : 0 < (U.get_vcf_record_range v.word).2
          · by_cases h6 : (U.get_vcf_record_range v.word).2 < (U.get_vcf_record_range v.word).1
            · refine Or.inr (Or.inl ⟨Failure.cantParseRange (U.get_vcf_record_range v.word).1
                (U.get_vcf_record_range v.word).2, fun σ callee s => ?_⟩)
              unfold process_lineWith
              rw [if_neg (not_not.mpr h1), if_neg (not_not.mpr h2), if_neg h3,
                if_neg (not_not.mpr h4), if_neg (not_not.mpr h5), if_pos h6]
            · refine Or.inr (Or.inr ⟨_, _, ?_, fun σ callee s =>
                process_lineWith_forward U callee v s h1 h2 h3 h4 (Nat.le_of_not_lt h6)⟩)
              omega
          · refine Or.inr (Or.inl ⟨Failure.assertEndPositive, fun σ callee s => ?_⟩)
            unfold process_lineWith
            rw [if_neg (not_not.mpr h1), if_neg (not_not.mpr h2), if_neg h3,
              if_neg (not_not.mpr h4), if_pos h5]
        · refine Or.inr (Or.inl ⟨Failure.assertBeginPositive, fun σ callee s => ?_⟩)
          unfold process_lineWith
          rw [if_neg (not_not.mpr h1), if_neg (not_not.mpr h2), if_neg h3, if_pos h4]
    · exact Or.inl fun σ callee s => process_lineWith_not_passed U callee v s h1 h2
  · refine Or.inr (Or.inl ⟨Failure.unexpectedFieldCount, fun σ callee s => ?_⟩)
    unfold process_lineWith
    rw [if_pos h1]

/-- Witness of C8: a `PASS` record of `chr1` with parsed range `11..20` is
forwarded as `("chr1", 10, 20)`. -/
theorem process_line_forwards_half_open_witness :
    process_line sampleVcfUtil (sampleRecord "PASS") (construct 0 0) =
      addPassedRange "chr1" 10 20 (construct 0 0) :=
  (process_line_forwards_half_open sampleVcfUtil (sampleRecord "PASS") 11 20
    (by decide) (by decide) rfl (by decide) (by decide) (by decide)).2.1 (construct 0 0)

/-- C9 (insertion drop): for a `PASS` record with the expected number of
fields whose parsed range satisfies `end_pos + 1 == begin_pos` (exactly, for an
`unsigned` `begin_pos`, or in the wrapping `unsigned` arithmetic of the source),
`process_line` returns normally without calling `addPassedRange`, whatever the
callee is; nothing is written and the current chromosome, begin and end are
unchanged. -/
theorem insertion_dropped (U : VcfUtil) (vparse : istream_line_splitter)
    (begin_pos end_pos : Nat) (hnw : vparse.n_word = U.SAMPLE + 1)
    (hpass : vparse.word.getD U.FILT "" = "PASS")
    (hrange : U.get_vcf_record_range vparse.word = (begin_pos, end_pos))
    (hins : (end_pos + 1 = begin_pos ∧ begin_pos < UNSIGNED_MODULUS) ∨
      (end_pos + 1) % UNSIGNED_MODULUS = begin_pos) :
    (∀ (σ : Type) (callee : String → Nat → Nat → σ → Except Failure σ) (s : σ),
        process_lineWith U callee vparse s = .ok s) ∧
      ∀ s, process_line U vparse s = .ok s := by
  have h : ((U.get_vcf_record_range vparse.word).2 + 1) % UNSIGNED_MODULUS =
      (U.get_vcf_record_range vparse.word).1 := by
    rw [hrange]
    rcases hins with ⟨h1, h2⟩ | h1
    · show (end_pos + 1) % UNSIGNED_MODULUS = begin_pos
      rw [h1]
      exact Nat.mod_eq_of_lt h2
    · exact h1
  exact ⟨fun σ callee s => process_lineWith_insertion U callee vparse s hnw hpass h,
    fun s => process_lineWith_insertion U addPassedRange vparse s hnw hpass h⟩

/-- Witness of C9: a `PASS` record with parsed range `21..20`, met with `chr1
10 20` open and one line already written. -/
theorem insertion_dropped_witness :
    process_line sampleInsertionVcfUtil (sampleRecord "PASS")
        ⟨[⟨"chr1", 3, 4⟩], "chr1", 10, 20⟩ =
      .ok ⟨[⟨"chr1", 3, 4⟩], "chr1", 10, 20⟩ :=
  (insertion_dropped sampleInsertionVcfUtil (sampleRecord "PASS") 21 20
    (by decide) (by decide) rfl (Or.inl (by decide))).2 ⟨[⟨"chr1", 3, 4⟩], "chr1", 10, 20⟩

theorem process_vcf_input_loop_not_passed (U : VcfUtil) (H : VcfHeaderHandler)
    (infp : List istream_line_splitter) (hwf : ∀ v ∈ infp, v.n_word = U.SAMPLE + 1)
    (hnp : ∀ v ∈ infp, v.word.getD U.FILT "" ≠ "PASS") (header : H.State)
    (rec : CallRegionVcfRecordHandler) :
    process_vcf_input_loop U H infp header rec = .ok rec := by
  induction infp generalizing header with
  | nil => rfl
  | cons v rest ih =>
    have h1 : process_line U v rec = .ok rec :=
      process_lineWith_not_passed U addPassedRange v rec (hwf v (List.mem_cons_self _ _))
        (hnp v (List.mem_cons_self _ _))
    have ih' := fun header => ih (fun w hw => hwf w (List.mem_cons_of_mem _ hw))
      (fun w hw => hnp w (List.mem_cons_of_mem _ hw)) header
    unfold process_vcf_input_loop
    split_ifs
    · exact ih' _
    · rw [h1]; exact ih' _

/-- C10 (empty or non-passed input produces no output): for every sequence of
lines with the expected number of fields none of which has `FILTER` exactly
`PASS` (the empty sequence included), and whatever the header handler takes as
header lines, `process_line` returns on every line without calling
`addPassedRange`, the handler is at the end as it was constructed, with no
interval open, and the complete output, destructor included, is empty. -/
theorem no_passed_record_no_output (U : VcfUtil) (H : VcfHeaderHandler)
    (uninitBegin uninitEnd : Nat) (infp : List istream_line_splitter)
    (hwf : ∀ v ∈ infp, v.n_word = U.SAMPLE + 1)
    (hnp : ∀ v ∈ infp, v.word.getD U.FILT "" ≠ "PASS") :
    (∀ v ∈ infp, ∀ (σ : Type) (callee : String → Nat → Nat → σ → Except Failure σ) (s : σ),
        process_lineWith U callee v s = .ok s) ∧
      process_vcf_input_loop U H infp H.init (construct uninitBegin uninitEnd) =
        .ok (construct uninitBegin uninitEnd) ∧
      (construct uninitBegin uninitEnd)._currentChrom = "" ∧
      process_vcf_input U H uninitBegin uninitEnd infp = .ok [] := by
  have hloop := process_vcf_input_loop_not_passed U H infp hwf hnp H.init
    (construct uninitBegin uninitEnd)
  refine ⟨fun v hv σ callee s => process_lineWith_not_passed U callee v s (hwf v hv) (hnp v hv),
    hloop, rfl, ?_⟩
  unfold process_vcf_input
  rw [hloop]
  simp [destruct, writeCurrent, construct]

/-- Witness of C10: a header line of ten words and two records that did not
pass. -/
theorem no_passed_record_no_output_witness :
    process_vcf_input sampleVcfUtil sampleHeaderHandler 0 0
      [⟨["#CHROM", "POS", "ID", "REF", "ALT", "QUAL", "FILTER", "INFO", "FORMAT", "S1"]⟩,
        sampleRecord "LowGQX", sampleRecord "PASS;LowGQX"] = .ok [] :=
  (no_passed_record_no_output sampleVcfUtil sampleHeaderHandler 0 0
    [⟨["#CHROM", "POS", "ID", "REF", "ALT", "QUAL", "FILTER", "INFO", "FORMAT", "S1"]⟩,
      sampleRecord "LowGQX", sampleRecord "PASS;LowGQX"] (by decide) (by decide)).2.2.2

/-! ### Failures -/

theorem addPassedRange_eq_traced (c : String) (b e : Nat) (s : CallRegionVcfRecordHandler) :
    addPassedRange c b e s =
      match addPassedRangeTraced c b e s with
      | (s', none) => .ok s'
      | (_, some f) => .error f := by
  unfold addPassedRange addPassedRangeTraced
  split_ifs <;> rfl

/-- C11 (an ordering violation is fatal): `addPassedRange` fails if and only if
an interval is open, the incoming chromosome is the open interval's chromosome
and the incoming `beginPos` is less than `_currentBeginPos`.  When it fails it
is by the ordering assertion, and the handler is then exactly as it was at the
call: nothing has been written and no member assigned.  In every other case
the call succeeds. -/
theorem ordering_violation_fatal (c : String) (b e : Nat) (s : CallRegionVcfRecordHandler) :
    ((∃ f, addPassedRange c b e s = .error f) ↔
        (s._currentChrom ≠ "" ∧ s._currentChrom = c ∧ b < s._currentBeginPos)) ∧
      (∀ f, addPassedRange c b e s = .error f →
        f = Failure.assertBeginOrder ∧ addPassedRangeTraced c b e s = (s, some f)) ∧
      (¬ (s._currentChrom ≠ "" ∧ s._currentChrom = c ∧ b < s._currentBeginPos) →
        ∃ s', addPassedRange c b e s = .ok s' ∧ addPassedRangeTraced c b e s = (s', none)) := by
  rcases addPassedRange_cases c b e s with ⟨hcase, h1⟩ | ⟨ho, hc, hb, h1⟩ | ⟨ho, hc, hb, hbe, h1⟩
  · have hno : ¬ (s._currentChrom ≠ "" ∧ s._currentChrom = c ∧ b < s._currentBeginPos) := by
      rintro ⟨h2, h3, h4⟩
      rcases hcase with h5 | h5 | h5
      · exact h2 h5
      · exact h5 h3
      · exact absurd h5.1 (Nat.not_le_of_lt h4)
    have htr : addPassedRangeTraced c b e s = (updateCurrent c b e s, none) := by
      have h2 := addPassedRange_eq_traced c b e s
      rw [h1] at h2
      rcases h3 : addPassedRangeTraced c b e s with ⟨s', _ | f⟩
      · rw [h3] at h2
        simp only [Except.ok.injEq] at h2
        rw [h2]
      · rw [h3] at h2
        cases h2
    refine ⟨⟨?_, fun h => absurd h hno⟩, ?_, fun _ => ⟨_, h1, htr⟩⟩
    · rintro ⟨f, hf⟩
      rw [h1] at hf
      cases hf
    · intro f hf
      rw [h1] at hf
      cases hf
  · have htr : addPassedRangeTraced c b e s = (s, some Failure.assertBeginOrder) := by
      unfold addPassedRangeTraced
      rw [if_neg ho, if_neg (not_not.mpr hc), if_pos (by omega)]
    refine ⟨⟨fun _ => ⟨ho, hc, hb⟩, fun _ => ⟨_, h1⟩⟩, ?_, fun h => absurd ⟨ho, hc, hb⟩ h⟩
    intro f hf
    rw [h1] at hf
    cases hf
    exact ⟨rfl, htr⟩
  · have hno : ¬ (s._currentChrom ≠ "" ∧ s._currentChrom = c ∧ b < s._currentBeginPos) := by
      rintro ⟨_, _, h4⟩
      exact absurd hb (Nat.not_le_of_lt h4)
    have htr : addPassedRangeTraced c b e s =
        ({ s with _currentEndPos := max e s._currentEndPos }, none) := by
      unfold addPassedRangeTraced
      rw [if_neg ho, if_neg (not_not.mpr hc), if_neg (by omega), if_neg (by omega)]
    refine ⟨⟨?_, fun h => absurd h hno⟩, ?_, fun _ => ⟨_, h1, htr⟩⟩
    · rintro ⟨f, hf⟩
      rw [h1] at hf
      cases hf
    · intro f hf
      rw [h1] at hf
      cases hf

/-- Witness of C11: with `chr1 10 20` open, a range of `chr1` beginning at 9
fails the assertion and leaves the handler as it was; one beginning at 10 is
accepted. -/
theorem ordering_violation_fatal_witness :
    addPassedRangeTraced "chr1" 9 30 ⟨[⟨"chr1", 3, 4⟩], "chr1", 10, 20⟩ =
        (⟨[⟨"chr1", 3, 4⟩], "chr1", 10, 20⟩, some Failure.assertBeginOrder) ∧
      ∃ s', addPassedRange "chr1" 10 30 ⟨[⟨"chr1", 3, 4⟩], "chr1", 10, 20⟩ = .ok s' ∧
        addPassedRangeTraced "chr1" 10 30 ⟨[⟨"chr1", 3, 4⟩], "chr1", 10, 20⟩ = (s', none) :=
  ⟨((ordering_violation_fatal "chr1" 9 30 ⟨[⟨"chr1", 3, 4⟩], "chr1", 10, 20⟩).2.1
      Failure.assertBeginOrder (by decide)).2,
    (ordering_violation_fatal "chr1" 10 30 ⟨[⟨"chr1", 3, 4⟩], "chr1", 10, 20⟩).2.2
      (by decide)⟩

/-- C12 (an inverted range is fatal): for a `PASS` record with the expected
number of fields whose parsed range has `end_pos < begin_pos` and is not the
insertion case (`end_pos + 1 != begin_pos`, exactly for an `unsigned`
`begin_pos`, or in the wrapping arithmetic of the source), `process_line` ends
the run with a failure that does not depend on the callee, so `addPassedRange`
is never called and nothing of the record is merged or written.  The failure is
the "Can't parse record range" exit with the parsed pair, except that for
`end_pos = 0` the assertion `end_pos > 0` fails first. -/
theorem inverted_range_fatal (U : VcfUtil) (vparse : istream_line_splitter)
    (begin_pos end_pos : Nat) (hnw : vparse.n_word = U.SAMPLE + 1)
    (hpass : vparse.word.getD U.FILT "" = "PASS")
    (hrange : U.get_vcf_record_range vparse.word = (begin_pos, end_pos))
    (hinv : end_pos < begin_pos)
    (hins : (end_pos + 1 ≠ begin_pos ∧ begin_pos < UNSIGNED_MODULUS) ∨
      (end_pos + 1) % UNSIGNED_MODULUS ≠ begin_pos) :
    ∃ f, ((end_pos = 0 ∧ f = Failure.assertEndPositive) ∨
          (0 < end_pos ∧ f = Failure.cantParseRange begin_pos end_pos)) ∧
      (∀ (σ : Type) (callee : String → Nat → Nat → σ → Except Failure σ) (s : σ),
        process_lineWith U callee vparse s = .error f) ∧
      ∀ s, process_line U vparse s = .error f := by
  have h3 : ¬ ((U.get_vcf_record_range vparse.word).2 + 1) % UNSIGNED_MODULUS =
      (U.get_vcf_record_range vparse.word).1 := by
    rw [hrange]
    show ¬ (end_pos + 1) % UNSIGNED_MODULUS = begin_pos
    rcases hins with ⟨h1, h2⟩ | h1
    · rw [Nat.mod_eq_of_lt (lt_of_le_of_lt (Nat.succ_le_of_lt hinv) h2)]
      exact h1
    · exact h1
  have h4 : (U.get_vcf_record_range vparse.word).1 > 0 := by
    rw [hrange]; exact Nat.lt_of_le_of_lt (Nat.zero_le _) hinv
  by_cases h5 : (U.get_vcf_record_range vparse.word).2 > 0
  · have h6 : (U.get_vcf_record_range vparse.word).2 < (U.get_vcf_record_range vparse.word).1 := by
      rw [hrange]; exact hinv
    have key : ∀ (σ : Type) (callee : String → Nat → Nat → σ → Except Failure σ) (s : σ),
        process_lineWith U callee vparse s =
          .error (Failure.cantParseRange begin_pos end_pos) := by
      intro σ callee s
      unfold process_lineWith
      rw [if_neg (not_not.mpr hnw), if_neg (not_not.mpr hpass), if_neg h3,
        if_neg (not_not.mpr h4), if_neg (not_not.mpr h5), if_pos h6, hrange]
    refine ⟨_, Or.inr ⟨?_, rfl⟩, key, fun s => key _ _ s⟩
    rw [hrange] at h5
    exact h5
  · have key : ∀ (σ : Type) (callee : String → Nat → Nat → σ → Except Failure σ) (s : σ),
        process_lineWith U callee vparse s = .error Failure.assertEndPositive := by
      intro σ callee s
      unfold process_lineWith
      rw [if_neg (not_not.mpr hnw), if_neg (not_not.mpr hpass), if_neg h3,
        if_neg (not_not.mpr h4), if_pos h5]
    refine ⟨_, Or.inl ⟨?_, rfl⟩, key, fun s => key _ _ s⟩
    rw [hrange] at h5
    exact Nat.eq_zero_of_not_pos h5

/-- Witness of C12: a `PASS` record with parsed range `30..20`, met with `chr1
10 20` open. -/
theorem inverted_range_fatal_witness :
    process_line sampleInvertedVcfUtil (sampleRecord "PASS") ⟨[], "chr1", 10, 20⟩ =
      .error (Failure.cantParseRange 30 20) :=
  have ⟨f, h1, _, h3⟩ := inverted_range_fatal sampleInvertedVcfUtil (sampleRecord "PASS") 30 20
    (by decide) (by decide) rfl (by decide) (Or.inl (by decide))
  have hf : f = Failure.cantParseRange 30 20 := by
    rcases h1 with ⟨h0, _⟩ | ⟨_, h2⟩
    · exact absurd h0 (by decide)
    · exact h2
  hf ▸ h3 ⟨[], "chr1", 10, 20⟩

/-! ### The invariant of the open interval -/

theorem mergesInto_iff {r : GenomicInterval} {s : CallRegionVcfRecordHandler} :
    mergesInto r s = true ↔
      (s._currentChrom ≠ "" ∧ s._currentChrom = r.chrom ∧
        s._currentBeginPos ≤ r.beginPos ∧ r.beginPos ≤ s._currentEndPos) := by
  simp [mergesInto]

theorem fedSinceOpened_cons_of_ok {r : GenomicInterval} {rs acc : List GenomicInterval}
    {s s1 : CallRegionVcfRecordHandler}
    (h : addPassedRange r.chrom r.beginPos r.endPos s = .ok s1) :
    fedSinceOpened (r :: rs) s acc =
      fedSinceOpened rs s1 (if mergesInto r s then acc ++ [r] else [r]) := by
  simp only [fedSinceOpened, h]

/-- The ranges fed since the current interval was opened are the last ranges
fed. -/
theorem fedSinceOpened_suffix {rs : List GenomicInterval} {s s' : CallRegionVcfRecordHandler}
    (h : feedAll rs s = .ok s') (acc : List GenomicInterval) :
    fedSinceOpened rs s acc <:+ acc ++ rs := by
  induction rs generalizing s acc with
  | nil => simp [fedSinceOpened]
  | cons r rs ih =>
    obtain ⟨s1, h1, h2⟩ := feedAll_cons_ok.mp h
    rw [fedSinceOpened_cons_of_ok h1]
    refine (ih h2 _).trans ?_
    split_ifs
    · simp
    · exact List.suffix_append acc (r :: rs)

/-- What holds of the open interval and of the ranges fed since it was opened. -/
theorem open_interval_invariant {rs : List GenomicInterval} {s s' : CallRegionVcfRecordHandler}
    (h : feedAll rs s = .ok s') (hle : ∀ r ∈ rs, r.beginPos ≤ r.endPos)
    (acc : List GenomicInterval)
    (h0 : s._currentChrom ≠ "" → s._currentBeginPos ≤ s._currentEndPos ∧
      (∃ o rest, acc = o :: rest ∧ o.beginPos = s._currentBeginPos) ∧
      ∀ r ∈ acc, r.chrom = s._currentChrom ∧ s._currentBeginPos ≤ r.beginPos) :
    s'._currentChrom ≠ "" → s'._currentBeginPos ≤ s'._currentEndPos ∧
      (∃ o rest, fedSinceOpened rs s acc = o :: rest ∧ o.beginPos = s'._currentBeginPos) ∧
      ∀ r ∈ fedSinceOpened rs s acc, r.chrom = s'._currentChrom ∧
        s'._currentBeginPos ≤ r.beginPos := by
  induction rs generalizing s acc with
  | nil =>
    simp only [feedAll, Except.ok.injEq] at h
    subst h
    simpa [fedSinceOpened] using h0
  | cons r rs ih =>
    obtain ⟨s1, h1, h2⟩ := feedAll_cons_ok.mp h
    rw [fedSinceOpened_cons_of_ok h1]
    refine ih h2 (fun r' hr' => hle r' (List.mem_cons_of_mem _ hr')) _ ?_
    have hr := hle r (List.mem_cons_self _ _)
    rcases addPassedRange_cases r.chrom r.beginPos r.endPos s with
      ⟨hcase, h4⟩ | ⟨_, _, _, h4⟩ | ⟨ho, hc, hb, hbe, h4⟩
    · rw [h4] at h1; cases h1
      have hm : mergesInto r s = false := by
        rw [Bool.eq_false_iff, ne_eq, mergesInto_iff]
        rintro ⟨h5, h6, _, h8⟩
        rcases hcase with h9 | h9 | h9
        · exact h5 h9
        · exact h9 h6
        · exact absurd h9.2 (Nat.not_lt_of_le h8)
      intro _
      simp [hm, updateCurrent, hr]
    · rw [h4] at h1; cases h1
    · rw [h4] at h1; cases h1
      have hm : mergesInto r s = true := mergesInto_iff.mpr ⟨ho, hc, hb, hbe⟩
      obtain ⟨h5, ⟨o, rest, h6, h7⟩, h8⟩ := h0 ho
      intro _
      refine ⟨le_trans h5 (le_max_right _ _), ⟨o, rest ++ [r], by simp [hm, h6], h7⟩, ?_⟩
      intro r' hr'
      simp only [hm, if_true, List.mem_append, List.mem_singleton] at hr'
      rcases hr' with hr' | hr'
      · exact h8 r' hr'
      · rw [hr']; exact ⟨hc.symm, hb⟩

/-- C13 (engine state invariant): after any sequence of successful
`addPassedRange` calls on a fresh engine whose ranges all have `beginPos ≤
endPos`, if the current chromosome is non-empty then `_currentBeginPos ≤
_currentEndPos`, and every range fed since the current interval was opened is
on the current chromosome and has `beginPos ≥ _currentBeginPos`; those ranges
are the last ones fed, and the first of them, which opened the interval, begins
exactly at `_currentBeginPos`.  Every reachable state is the state after such a
sequence. -/
theorem engine_state_invariant (rs : List GenomicInterval) (uninitBegin uninitEnd : Nat)
    (s : CallRegionVcfRecordHandler) (hle : ∀ r ∈ rs, r.beginPos ≤ r.endPos)
    (h : feedAll rs (construct uninitBegin uninitEnd) = .ok s) (ho : s._currentChrom ≠ "") :
    s._currentBeginPos ≤ s._currentEndPos ∧
      (∀ r ∈ fedSinceOpened rs (construct uninitBegin uninitEnd) [],
        r.chrom = s._currentChrom ∧ s._currentBeginPos ≤ r.beginPos) ∧
      fedSinceOpened rs (construct uninitBegin uninitEnd) [] <:+ rs ∧
      ∃ o rest, fedSinceOpened rs (construct uninitBegin uninitEnd) [] = o :: rest ∧
        o.beginPos = s._currentBeginPos := by
  have h1 := open_interval_invariant h hle [] (fun h0 => absurd rfl h0) ho
  have h2 := fedSinceOpened_suffix h []
  exact ⟨h1.1, h1.2.2, by simpa using h2, h1.2.1⟩

/-- Witness of C13: after a gap and two merges, the second out of order, the
open interval is `chr1 40 60` and three ranges have been fed since it was
opened. -/
theorem engine_state_invariant_witness :
    (40 : Nat) ≤ 60 ∧
      fedSinceOpened
        [⟨"chr1", 10, 20⟩, ⟨"chr1", 40, 50⟩, ⟨"chr1", 45, 60⟩, ⟨"chr1", 42, 43⟩]
        (construct 0 0) [] <:+
        [⟨"chr1", 10, 20⟩, ⟨"chr1", 40, 50⟩, ⟨"chr1", 45, 60⟩, ⟨"chr1", 42, 43⟩] :=
  have h := engine_state_invariant
    [⟨"chr1", 10, 20⟩, ⟨"chr1", 40, 50⟩, ⟨"chr1", 45, 60⟩, ⟨"chr1", 42, 43⟩] 0 0
    ⟨[⟨"chr1", 10, 20⟩], "chr1", 40, 60⟩ (by decide) (by decide) (by decide)
  ⟨h.1, h.2.2.1⟩

/-! ### The characters of a line -/

theorem text_data (l : GenomicInterval) :
    l.text.data = l.chrom.data ++ '\t' :: Nat.toDigits 10 l.beginPos ++
      '\t' :: Nat.toDigits 10 l.endPos ++ ['\n'] := by
  simp [GenomicInterval.text, toString, Nat.repr, List.asString]

theorem outfpText_append (s : CallRegionVcfRecordHandler) (l : GenomicInterval) :
    outfpText { s with outfp := s.outfp ++ [l] } = outfpText s ++ l.text := by
  apply String.ext
  simp [outfpText, String.data_join]

/-- C14 (output line format): with an interval `(c, b, e)` open, `c` non-empty,
`writeCurrent` appends to the output exactly the characters of `c`, a tab, the
decimal digits of `b`, a tab, the decimal digits of `e` and a newline; what was
written before stays in front of them, one line is added and no member
changes. -/
theorem writeCurrent_line_format (s : CallRegionVcfRecordHandler)
    (ho : s._currentChrom ≠ "") :
    outfpText (writeCurrent s) =
        outfpText s ++ (s._currentChrom ++ "\t" ++ toString s._currentBeginPos ++ "\t" ++
          toString s._currentEndPos ++ "\n") ∧
      (outfpText (writeCurrent s)).data =
        (outfpText s).data ++ (s._currentChrom.data ++ '\t' ::
          Nat.toDigits 10 s._currentBeginPos ++ '\t' ::
          Nat.toDigits 10 s._currentEndPos ++ ['\n']) ∧
      writeCurrent s = { s with outfp := s.outfp ++ [s.current] } := by
  have h1 := writeCurrent_of_open ho
  have h2 : outfpText (writeCurrent s) = outfpText s ++ s.current.text := by
    rw [h1, outfpText_append]
  refine ⟨h2, ?_, h1⟩
  rw [h2, String.data_append, text_data]
  rfl

/-- Witness of C14: with `chr1 5 15` open and nothing written, `writeCurrent`
sends `chr1`, a tab, `5`, a tab, `15` and a newline. -/
theorem writeCurrent_line_format_witness :
    outfpText (writeCurrent ⟨[], "chr1", 5, 15⟩) = "chr1\t5\t15\n" :=
  ((writeCurrent_line_format ⟨[], "chr1", 5, 15⟩ (by decide)).1).trans (by decide)

/-! ### What one feed writes -/

/-- What a successful call writes: the open interval, when the range is on
another chromosome or begins after the open interval ends; else nothing. -/
theorem feed_writes_iff_aux {c : String} {b e : Nat} {s s' : CallRegionVcfRecordHandler}
    (h : addPassedRange c b e s = .ok s') :
    ((s._currentChrom ≠ "" ∧ (s._currentChrom ≠ c ∨ b > s._currentEndPos)) →
        s'.outfp = s.outfp ++ [s.current]) ∧
      (¬ (s._currentChrom ≠ "" ∧ (s._currentChrom ≠ c ∨ b > s._currentEndPos)) →
        s'.outfp = s.outfp) := by
  rcases addPassedRange_cases c b e s with ⟨hcase, h1⟩ | ⟨_, _, _, h1⟩ | ⟨ho, hc, hb, hbe, h1⟩
  · rw [h1] at h; cases h
    by_cases ho : s._currentChrom = ""
    · have h2 : (updateCurrent c b e s).outfp = s.outfp := by
        rw [updateCurrent_outfp, destruct_outfp_of_empty ho]
      exact ⟨fun h3 => absurd ho h3.1, fun _ => h2⟩
    · have h2 : (updateCurrent c b e s).outfp = s.outfp ++ [s.current] := by
        rw [updateCurrent_outfp, destruct_outfp_of_open ho]
      refine ⟨fun _ => h2, fun h3 => absurd ?_ h3⟩
      rcases hcase with h3 | h3 | h3
      · exact absurd h3 ho
      · exact ⟨ho, Or.inl h3⟩
      · exact ⟨ho, Or.inr h3.2⟩
  · rw [h1] at h; cases h
  · rw [h1] at h; cases h
    refine ⟨fun h3 => ?_, fun _ => rfl⟩
    rcases h3 with ⟨_, h3 | h3⟩
    · exact absurd hc h3
    · exact absurd hbe (Nat.not_le_of_lt h3)

theorem outfp_length_feedAll {rs : List GenomicInterval} {s s' : CallRegionVcfRecordHandler}
    (h : feedAll rs s = .ok s') : s.outfp.length ≤ s'.outfp.length := by
  induction rs generalizing s with
  | nil =>
    simp only [feedAll, Except.ok.injEq] at h
    subst h
    exact le_refl _
  | cons r rs ih =>
    obtain ⟨s1, h1, h2⟩ := feedAll_cons_ok.mp h
    refine le_trans ?_ (ih h2)
    by_cases hw : s._currentChrom ≠ "" ∧
        (s._currentChrom ≠ r.chrom ∨ r.beginPos > s._currentEndPos)
    · rw [((feed_writes_iff_aux h1).1 hw)]
      simp
    · rw [(feed_writes_iff_aux h1).2 hw]

/-- While nothing is written from a state with an interval open, every feed
is a merge: chromosome and begin stay, the end does not decrease. -/
theorem stays_open_feedAll {rs : List GenomicInterval} {s s' : CallRegionVcfRecordHandler}
    (h : feedAll rs s = .ok s') (ho : s._currentChrom ≠ "") (hout : s'.outfp = s.outfp) :
    s'._currentChrom = s._currentChrom ∧ s'._currentBeginPos = s._currentBeginPos ∧
      s._currentEndPos ≤ s'._currentEndPos := by
  induction rs generalizing s with
  | nil =>
    simp only [feedAll, Except.ok.injEq] at h
    subst h
    exact ⟨rfl, rfl, le_refl _⟩
  | cons r rs ih =>
    obtain ⟨s1, h1, h2⟩ := feedAll_cons_ok.mp h
    have hlen := outfp_length_feedAll h2
    by_cases hw : s._currentChrom ≠ "" ∧
        (s._currentChrom ≠ r.chrom ∨ r.beginPos > s._currentEndPos)
    · have h3 := (feed_writes_iff_aux h1).1 hw
      rw [hout, h3] at hlen
      simp at hlen
    · have h3 := (feed_writes_iff_aux h1).2 hw
      rcases addPassedRange_cases r.chrom r.beginPos r.endPos s with
        ⟨hcase, h4⟩ | ⟨_, _, _, h4⟩ | ⟨_, hc, hb, hbe, h4⟩
      · exfalso
        apply hw
        rcases hcase with h5 | h5 | h5
        · exact absurd h5 ho
        · exact ⟨ho, Or.inl h5⟩
        · exact ⟨ho, Or.inr h5.2⟩
      · rw [h4] at h1; cases h1
      · rw [h4] at h1; cases h1
        have h5 := ih h2 ho hout
        exact ⟨h5.1, h5.2.1, le_trans (le_max_right _ _) h5.2.2⟩

/-- C16 (merge step frame): with an interval open on chromosome `c`, a range on
`c` with `_currentBeginPos ≤ beginPos ≤ _currentEndPos` is accepted, nothing is
written, chromosome and `_currentBeginPos` stay, and `_currentEndPos` becomes
`max(_currentEndPos, endPos)`, which is not less than before.  Hence over any
sequence of successful feeds during which nothing is written, so that the
interval stays open, chromosome and begin stay and `_currentEndPos` does not
decrease. -/
theorem merge_step_frame (s : CallRegionVcfRecordHandler) (c : String) (b e : Nat)
    (ho : s._currentChrom ≠ "") (hc : s._currentChrom = c)
    (hb : s._currentBeginPos ≤ b) (hbe : b ≤ s._currentEndPos) :
    addPassedRange c b e s =
        .ok { outfp := s.outfp, _currentChrom := s._currentChrom,
              _currentBeginPos := s._currentBeginPos,
              _currentEndPos := max s._currentEndPos e } ∧
      s._currentEndPos ≤ max s._currentEndPos e ∧
      ∀ (rs : List GenomicInterval) (s' : CallRegionVcfRecordHandler),
        feedAll rs s = .ok s' → s'.outfp = s.outfp →
          s'._currentChrom = s._currentChrom ∧ s'._currentBeginPos = s._currentBeginPos ∧
            s._currentEndPos ≤ s'._currentEndPos := by
  refine ⟨?_, le_max_left _ _, fun rs s' h hout => stays_open_feedAll h ho hout⟩
  rcases addPassedRange_cases c b e s with ⟨hcase, _⟩ | ⟨_, _, hlt, _⟩ | ⟨_, _, _, _, h1⟩
  · rcases hcase with h2 | h2 | h2
    · exact absurd h2 ho
    · exact absurd hc h2
    · exact absurd hbe (Nat.not_le_of_lt h2.2)
  · exact absurd hb (Nat.not_le_of_lt hlt)
  · rw [h1, max_comm]

/-- Witness of C16: `chr1 12 35` into the open interval `chr1 10 20`. -/
theorem merge_step_frame_witness :
    addPassedRange "chr1" 12 35 ⟨[⟨"chr1", 3, 4⟩], "chr1", 10, 20⟩ =
      .ok ⟨[⟨"chr1", 3, 4⟩], "chr1", 10, max 20 35⟩ :=
  (merge_step_frame ⟨[⟨"chr1", 3, 4⟩], "chr1", 10, 20⟩ "chr1" 12 35
    (by decide) (by decide) (by decide) (by decide)).1

/-! ### Ranges without a chromosome name -/

/-- Every line of the complete output is named, whatever is fed. -/
theorem named_destruct_feedAll {rs : List GenomicInterval} {s s' : CallRegionVcfRecordHandler}
    (h : feedAll rs s = .ok s') (h0 : ∀ l ∈ (destruct s).outfp, l.chrom ≠ "") :
    ∀ l ∈ (destruct s').outfp, l.chrom ≠ "" := by
  induction rs generalizing s with
  | nil =>
    simp only [feedAll, Except.ok.injEq] at h
    subst h
    exact h0
  | cons r rs ih =>
    obtain ⟨s1, h1, h2⟩ := feedAll_cons_ok.mp h
    refine ih h2 ?_
    rcases addPassedRange_cases r.chrom r.beginPos r.endPos s with
      ⟨_, h4⟩ | ⟨_, _, _, h4⟩ | ⟨ho, hc, _, _, h4⟩
    · rw [h4] at h1; cases h1
      by_cases hc : r.chrom = ""
      · rw [hc, destruct_updateCurrent_of_unnamed]; exact h0
      · rw [destruct_updateCurrent_of_named hc]
        intro l hl
        rw [List.mem_append, List.mem_singleton] at hl
        rcases hl with hl | hl
        · exact h0 l hl
        · rw [hl]; exact hc
    · rw [h4] at h1; cases h1
    · rw [h4] at h1; cases h1
      rw [destruct_outfp_of_open ho] at h0
      rw [destruct_outfp_of_open (s := { s with _currentEndPos := max r.endPos s._currentEndPos }) ho]
      intro l hl
      rw [List.mem_append, List.mem_singleton] at hl
      rcases hl with hl | hl
      · exact h0 l (List.mem_append_left _ hl)
      · rw [hl]; exact ho

/-- C17 (a range with an empty chromosome name is silently lost): for every
state, `addPassedRange("", b, e)` succeeds, writes the open interval if there
is one and nothing otherwise, and leaves the current chromosome empty, so that
no interval is open and the destructor would write nothing more.  Whatever is
fed afterwards, the complete output is what had been written, then the
interval that was open, then what a fresh engine writes for the later ranges:
it does not depend on `b` and `e`, and every line of it written after the call
has a non-empty name, so none is the range `("", b, e)`. -/
theorem unnamed_range_lost (s : CallRegionVcfRecordHandler) (b e : Nat) :
    addPassedRange "" b e s = .ok (updateCurrent "" b e s) ∧
      (updateCurrent "" b e s)._currentChrom = "" ∧
      (s._currentChrom ≠ "" → (updateCurrent "" b e s).outfp = s.outfp ++ [s.current]) ∧
      (s._currentChrom = "" → (updateCurrent "" b e s).outfp = s.outfp) ∧
      (destruct (updateCurrent "" b e s)).outfp = (updateCurrent "" b e s).outfp ∧
      ∀ (rs : List GenomicInterval) (s2 : CallRegionVcfRecordHandler) (a1 a2 : Nat),
        feedAll rs (updateCurrent "" b e s) = .ok s2 →
          ∃ out, run a1 a2 rs = .ok out ∧
            (destruct s2).outfp = (updateCurrent "" b e s).outfp ++ out ∧
            ∀ l ∈ out, l.chrom ≠ "" := by
  have hcall : addPassedRange "" b e s = .ok (updateCurrent "" b e s) := by
    rcases addPassedRange_cases "" b e s with ⟨_, h1⟩ | ⟨ho, hc, _, _⟩ | ⟨ho, hc, _, _, _⟩
    · exact h1
    · exact absurd hc ho
    · exact absurd hc ho
  have hchrom := updateCurrent_chrom "" b e s
  refine ⟨hcall, hchrom, fun ho => ?_, fun ho => ?_, destruct_outfp_of_empty hchrom, ?_⟩
  · rw [updateCurrent_outfp, destruct_outfp_of_open ho]
  · rw [updateCurrent_outfp, destruct_outfp_of_empty ho]
  · intro rs s2 a1 a2 h
    have hshape : updateCurrent "" b e s =
        afterOutput (updateCurrent "" b e s).outfp (construct b e) := by
      simp [updateCurrent, afterOutput, construct]
    rw [hshape, afterOutput_feedAll] at h
    cases h3 : feedAll rs (construct b e) with
    | error f => rw [h3] at h; cases h
    | ok s3 =>
      rw [h3] at h
      simp only [Except.ok.injEq] at h
      subst h
      refine ⟨(destruct s3).outfp, ?_, ?_, ?_⟩
      · rw [run_uninit a1 a2 b e]
        exact run_ok_iff.mpr ⟨s3, h3, rfl⟩
      · rw [afterOutput_destruct]
      · exact named_destruct_feedAll h3 (by rw [destruct_construct_outfp]; simp)

/-- Witness of C17: an unnamed range met with `chr1 10 20` open, followed by a
range of `chr1` that would have overlapped it. -/
theorem unnamed_range_lost_witness :
    ∃ out, run 0 0 [⟨"chr1", 15, 30⟩] = .ok out ∧
      (destruct ⟨[⟨"chr1", 10, 20⟩], "chr1", 15, 30⟩).outfp =
        (updateCurrent "" 7 9 ⟨[], "chr1", 10, 20⟩).outfp ++ out ∧
      ∀ l ∈ out, l.chrom ≠ "" :=
  (unnamed_range_lost ⟨[], "chr1", 10, 20⟩ 7 9).2.2.2.2.2 [⟨"chr1", 15, 30⟩]
    ⟨[⟨"chr1", 10, 20⟩], "chr1", 15, 30⟩ 0 0 (by decide)

/-! ### Input that is not sorted -/

/-- C18 (the ordering assertion is weaker than sortedness, yet enough): the
ranges `(10,20)`, `(15,30)`, `(12,14)` of `chr1` are not sorted by `beginPos`,
and the engine accepts them, writing `chr1 10 30`.  For every sequence of
ranges on one non-empty chromosome name, each with `beginPos ≤ endPos`, on
which every `addPassedRange` call succeeds, sorted or not, the union of the
intervals of the complete output equals the union of the input, every line is
on that chromosome and not inverted, and each line ends strictly before the
next one begins. -/
theorem unsorted_accepted_and_correct (c : String) (hc : c ≠ "")
    (rs : List GenomicInterval) (hchrom : ∀ r ∈ rs, r.chrom = c)
    (hord : ∀ r ∈ rs, r.beginPos ≤ r.endPos) (uninitBegin uninitEnd : Nat)
    (out : List GenomicInterval) (h : run uninitBegin uninitEnd rs = .ok out) :
    (¬ [(⟨"chr1", 10, 20⟩ : GenomicInterval), ⟨"chr1", 15, 30⟩, ⟨"chr1", 12, 14⟩].Pairwise
          (fun a b => a.beginPos ≤ b.beginPos) ∧
        run uninitBegin uninitEnd [⟨"chr1", 10, 20⟩, ⟨"chr1", 15, 30⟩, ⟨"chr1", 12, 14⟩] =
          .ok [⟨"chr1", 10, 30⟩]) ∧
      unionOf out = unionOf rs ∧
      out.Chain' (fun a b => a.endPos < b.beginPos) ∧
      ∀ l ∈ out, l.chrom = c ∧ l.beginPos ≤ l.endPos := by
  obtain ⟨s', hs', ho⟩ := run_ok_iff.mp h
  subst ho
  have hnamed : ∀ r ∈ rs, r.chrom ≠ "" := fun r hr => by rw [hchrom r hr]; exact hc
  have hset := settled_feedAll (settled_construct uninitBegin uninitEnd) hnamed hs'
  have hout : ∀ l ∈ (destruct s').outfp, l.chrom = c := by
    intro l hl
    rcases chrom_of_mem_feedAll hs' hl with h1 | ⟨r, hr, h1⟩
    · rw [destruct_construct_outfp] at h1
      simp at h1
    · rw [← h1]; exact hchrom r hr
  have hle : ∀ l ∈ (destruct s').outfp, l.beginPos ≤ l.endPos :=
    width_of_mem_feedAll (fun b e => b ≤ e) (fun _ _ _ h1 h2 => le_trans h1 h2) hs' hord
      (by rw [destruct_construct_outfp]; simp)
  refine ⟨⟨by decide, ?_⟩, ?_, ?_, fun l hl => ⟨hout l hl, hle l hl⟩⟩
  · simp [run, feedAll, addPassedRange, updateCurrent, writeCurrent, construct, destruct]
  · rw [unionOf_eq_unionOn hout, unionOf_eq_unionOn hchrom, unionOn_feedAll hs' hc,
      destruct_construct_outfp, unionOn_nil, Set.empty_union]
  · refine (List.Chain'.iff_mem.mp hset.apart).imp ?_
    rintro a b ⟨ha, hb, hab⟩
    rcases hab with hab | hab
    · exact absurd ((hout a ha).trans (hout b hb).symm) hab
    · exact hab.2

/-- Witness of C18 on a sequence that is not sorted and closes an interval:
`(10,20)`, `(15,30)`, `(12,14)`, `(40,50)`, `(45,46)`, `(41,60)`. -/
theorem unsorted_accepted_and_correct_witness :
    unionOf [(⟨"chr1", 10, 30⟩ : GenomicInterval), ⟨"chr1", 40, 60⟩] =
        unionOf [⟨"chr1", 10, 20⟩, ⟨"chr1", 15, 30⟩, ⟨"chr1", 12, 14⟩, ⟨"chr1", 40, 50⟩,
          ⟨"chr1", 45, 46⟩, ⟨"chr1", 41, 60⟩] ∧
      [(⟨"chr1", 10, 30⟩ : GenomicInterval), ⟨"chr1", 40, 60⟩].Chain'
        (fun a b => a.endPos < b.beginPos) :=
  have h := unsorted_accepted_and_correct "chr1" (by decide)
    [⟨"chr1", 10, 20⟩, ⟨"chr1", 15, 30⟩, ⟨"chr1", 12, 14⟩, ⟨"chr1", 40, 50⟩,
      ⟨"chr1", 45, 46⟩, ⟨"chr1", 41, 60⟩]
    (by decide) (by decide) 0 0 [⟨"chr1", 10, 30⟩, ⟨"chr1", 40, 60⟩] (by decide)
  ⟨h.2.1, h.2.2.1⟩

end GetCalledRegions
